import Mathlib

/-!
# Verification of the noobaa-core object I/O engine

Shallow embedding of the content-defined chunk splitter
(`src/native/chunk/splitter.cpp`) and of the object I/O pipeline logic
(`src/sdk/object_io.js`), with theorems settling the frozen claims about
boundary detection, chunk bounds, push fragmentation invariance, stream
digests, part bookkeeping, semaphore timeout reporting, the read cache,
fragment reading and range assembly.

Machine integers are modelled as `Nat`; the Rabin rolling hash instance
(class `Rabin`, not part of the analysed sources) is treated as an
arbitrary update function `upd : Nat → Nat → Nat → Nat`
(`upd hash byte_in byte_out`), with a concrete executable instance
modelled from the spec used for witnesses.
-/

namespace Noobaa

/-! ## Splitter state (`Splitter` of splitter.cpp)

Fields mirror the C++ members: the chunking parameters passed to the
constructor, the 16-byte circular rolling window `_window` with cursor
`_window_pos`, the byte position `_chunk_pos` inside the current chunk,
the rolling hash `_hash`, the collected `_split_points`, and the bytes fed
so far to the MD5 / SHA-256 contexts (an EVP digest context is modelled
by the list of bytes absorbed so far). -/

/-- `NB_RABIN_WINDOW_LEN` of splitter.cpp. -/
def window_len : Nat := 16

structure Splitter where
  min_chunk : Nat
  max_chunk : Nat
  avg_chunk_bits : Nat
  calc_md5 : Bool
  calc_sha256 : Bool
  window : List Nat
  window_pos : Nat
  chunk_pos : Nat
  hash : Nat
  split_points : List Nat
  md5_ctx : List Nat
  sha256_ctx : List Nat
deriving Repr, DecidableEq

/-- The `Splitter` constructor: zeroed window, zero hash and chunk
position, fresh digest contexts. -/
def mkSplitter (min_chunk max_chunk avg_chunk_bits : Nat)
    (calc_md5 calc_sha256 : Bool) : Splitter :=
  { min_chunk := min_chunk
    max_chunk := max_chunk
    avg_chunk_bits := avg_chunk_bits
    calc_md5 := calc_md5
    calc_sha256 := calc_sha256
    window := List.replicate window_len 0
    window_pos := 0
    chunk_pos := 0
    hash := 0
    split_points := []
    md5_ctx := []
    sha256_ctx := [] }

/-- The stack-resident scanning state of `Splitter::_next_point`
(window data, window position, rolling hash). -/
structure ScanSt where
  window : List Nat
  wpos : Nat
  hash : Nat
deriving Repr, DecidableEq

/-- One iteration of the byte-scanning loop of `_next_point`: update the
rolling hash by shifting in the next byte and shifting out the byte
leaving the window, store the byte in the circular window, advance and
wrap the window cursor. -/
def scan_step (upd : Nat → Nat → Nat → Nat) (st : ScanSt) (b : Nat) : ScanSt :=
  { window := st.window.set st.wpos b
    wpos := if st.wpos + 1 ≥ window_len then 0 else st.wpos + 1
    hash := upd st.hash b (st.window.getD st.wpos 0) }

/-- Folding `scan_step` over a byte list (the cumulative effect of the
scanning loop on the window/hash state). -/
def roll (upd : Nat → Nat → Nat → Nat) (st : ScanSt) (l : List Nat) : ScanSt :=
  l.foldl (scan_step upd) st

/-- The byte-scanning loop of `_next_point`: starting at chunk position
`cp`, scan while `cp < mx`; after hashing each byte, stop with `true` as
soon as `(hash &&& mask) = mask`.  Returns the boundary flag, the final
scan state, the final chunk position and the unconsumed bytes. -/
def scan (upd : Nat → Nat → Nat → Nat) (mask mx : Nat) :
    ScanSt → Nat → List Nat → Bool × ScanSt × Nat × List Nat
  | st, cp, [] => (false, st, cp, [])
  | st, cp, b :: rest =>
    if cp < mx then
      let st' := scan_step upd st b
      if st'.hash &&& mask = mask then (true, st', cp + 1, rest)
      else scan upd mask mx st' (cp + 1) rest
    else (false, st, cp, b :: rest)

/-- The tail of `Splitter::_next_point` after the scanning loop: on a
boundary, or when `chunk_pos >= _max_chunk`, zero the window, reset the
hash, record `chunk_pos` and report the boundary with the unconsumed
bytes; otherwise save the scan state and consume everything. -/
def np_assemble (s : Splitter) (res : Bool × ScanSt × Nat × List Nat) :
    Bool × Splitter × List Nat :=
  match res with
  | (boundary, st, cp, rest) =>
    if boundary || decide (cp ≥ s.max_chunk) then
      (true, { s with window := List.replicate window_len 0, window_pos := 0,
                      chunk_pos := cp, hash := 0 }, rest)
    else
      (false, { s with window := st.window, window_pos := st.wpos,
                       chunk_pos := cp, hash := st.hash }, [])

/-- `Splitter::_next_point`.  Computes `total`, the clamped `min`/`max`,
the average-chunk mask, skips unhashed bytes below the min chunk length,
scans byte by byte (`scan`), and assembles the outcome
(`np_assemble`). -/
def next_point (upd : Nat → Nat → Nat → Nat) (s : Splitter) (data : List Nat) :
    Bool × Splitter × List Nat :=
  np_assemble s
    (scan upd (2 ^ s.avg_chunk_bits - 1)
      (min (s.chunk_pos + data.length) s.max_chunk)
      ⟨s.window, s.window_pos, s.hash⟩
      (if s.chunk_pos < min (s.chunk_pos + data.length) s.min_chunk
        then min (s.chunk_pos + data.length) s.min_chunk
        else s.chunk_pos)
      (if s.chunk_pos < min (s.chunk_pos + data.length) s.min_chunk
        then data.drop (min (s.chunk_pos + data.length) s.min_chunk - s.chunk_pos)
        else data))

/-- The body of the `while (_next_point(...))` loop of `Splitter::push`:
`_split_points.push_back(_chunk_pos); _chunk_pos = 0;`. -/
def reset_chunk (s : Splitter) : Splitter :=
  { s with split_points := s.split_points ++ [s.chunk_pos], chunk_pos := 0 }

/-- The `while (_next_point(...))` loop of `Splitter::push`: on a
boundary, record `_chunk_pos` in `_split_points`, reset `_chunk_pos` to
zero and continue on the unconsumed bytes.  Structured with fuel; `push`
supplies `data.length + 1`, which suffices because every boundary
consumes at least one byte. -/
def push_go (upd : Nat → Nat → Nat → Nat) : Nat → Splitter → List Nat → Splitter
  | 0, s, _ => s
  | fuel + 1, s, data =>
    match next_point upd s data with
    | (true, s', rest) => push_go upd fuel (reset_chunk s') rest
    | (false, s', _) => s'

/-- `Splitter::push`: update the MD5/SHA-256 contexts over the raw bytes
when enabled, then run the boundary loop. -/
def push (upd : Nat → Nat → Nat → Nat) (s : Splitter) (data : List Nat) : Splitter :=
  push_go upd (data.length + 1)
    { s with
      md5_ctx := if s.calc_md5 then s.md5_ctx ++ data else s.md5_ctx
      sha256_ctx := if s.calc_sha256 then s.sha256_ctx ++ data else s.sha256_ctx }
    data

/-- `Splitter::finish(md5, sha256)`: finalize the enabled digests into the
caller-provided destinations (`want_md5`/`want_sha256` model non-null
destination pointers); the digest algorithms themselves are external
(OpenSSL EVP), modelled as arbitrary functions of the absorbed bytes.
The splitter state is returned unchanged: no trailing boundary is
emitted. -/
def finish (md5fn sha256fn : List Nat → List Nat) (want_md5 want_sha256 : Bool)
    (s : Splitter) : Option (List Nat) × Option (List Nat) × Splitter :=
  ((if want_md5 && s.calc_md5 then some (md5fn s.md5_ctx) else none),
   (if want_sha256 && s.calc_sha256 then some (sha256fn s.sha256_ctx) else none),
   s)

/-! ## A concrete rolling hash instance

Modelled from the spec: the `Rabin` class (`src/util/rabin.*`, not among
the analysed sources) is "a polynomial rolling hash over a fixed-length
window; ... irreducible polynomial over GF(2) of degree 39, window
length 16 bytes", instantiated in splitter.cpp with
`NB_RABIN_POLY 021`, `NB_RABIN_DEGREE 39`, `NB_RABIN_WINDOW_LEN 16`.
The hash value is the residue of the window polynomial modulo
`x^39 + x^4 + 1`; `rabin_update h b out` shifts in byte `b` and shifts
out byte `out` (inserted 16 bytes earlier). -/

def iterN (f : Nat → Nat) : Nat → Nat → Nat
  | 0, x => x
  | n + 1, x => iterN f n (f x)

/-- `x^39 + x^4 + 1` as a bit mask (degree 39, poly `021` octal). -/
def rabin_poly : Nat := (1 <<< 39) ||| 0o21

/-- Multiply by `x` modulo the Rabin polynomial. -/
def rabin_shift_bit (h : Nat) : Nat :=
  let h2 := h <<< 1
  if h2 &&& (1 <<< 39) ≠ 0 then h2 ^^^ rabin_poly else h2

/-- Multiply by `x^8` modulo the Rabin polynomial. -/
def rabin_shift_byte (h : Nat) : Nat := iterN rabin_shift_bit 8 h

/-- Contribution of the byte leaving the 16-byte window
(`out * x^(8*15) mod poly`). -/
def rabin_out_contrib (b : Nat) : Nat := iterN rabin_shift_byte (window_len - 1) b

/-- Modelled from the spec: `Rabin::update(hash, byte_in, byte_out)`. -/
def rabin_update (h b out : Nat) : Nat :=
  rabin_shift_byte (h ^^^ rabin_out_contrib out) ^^^ b

/-! ## Upload part bookkeeping (`ObjectIO._upload_chunks`)

`_upload_stream_internal` sets `params.start = 0`, `params.seq = 0`,
`complete_params.size = 0`, `complete_params.num_parts = 0`; then each
coalesced batch of chunks is passed to `_upload_chunks`, which for each
chunk builds a part `{start, end := start + chunk.size, seq}` and
advances `params.seq`, `params.start`, `complete_params.size`,
`complete_params.num_parts`.  (`new ChunkAPI(chunk_info).size` is the
`size` of the chunk info.)  Only the size-relevant fields are modelled. -/

structure PartInfo where
  pstart : Nat
  pend : Nat
  seq : Nat
deriving Repr, DecidableEq

structure UploadAcc where
  start : Nat
  seq : Nat
  size : Nat
  num_parts : Nat
  parts : List PartInfo
deriving Repr, DecidableEq

/-- The per-chunk body of the `chunks.map` loop in `_upload_chunks`. -/
def upload_chunk_step (a : UploadAcc) (chunk_size : Nat) : UploadAcc :=
  { start := a.start + chunk_size
    seq := a.seq + 1
    size := a.size + chunk_size
    num_parts := a.num_parts + 1
    parts := a.parts ++ [⟨a.start, a.start + chunk_size, a.seq⟩] }

/-- `_upload_chunks` over one coalesced batch of chunk sizes. -/
def upload_chunks (a : UploadAcc) (batch : List Nat) : UploadAcc :=
  batch.foldl upload_chunk_step a

/-- Successive `_upload_chunks` invocations over all batches of one
upload. -/
def upload_batches (a : UploadAcc) (batches : List (List Nat)) : UploadAcc :=
  batches.foldl upload_chunks a

/-- The state set up by `_upload_stream_internal`
(`params.start = 0`, `params.seq = 0`, `complete_params.size = 0`,
`complete_params.num_parts = 0`). -/
def init_upload_acc : UploadAcc := ⟨0, 0, 0, 0, []⟩

/-- The parts that the claim describes: part `i` covers
`[sum of sizes before i, sum through i)` with `seq = i`. -/
def spec_parts (sizes : List Nat) : List PartInfo :=
  (List.range sizes.length).map
    (fun i => ⟨(sizes.take i).sum, (sizes.take (i + 1)).sum, i⟩)

/-! ## Semaphore timeout handling (`ObjectIO._handle_semaphore_errors`)

The stream byte semaphore (`_io_buffers_sem`) is constructed with
`timeout_error_code: 'OBJECT_IO_STREAM_ITEM_TIMEOUT'`; on that error
code the handler re-raises it and, at most once per hour
(`_last_io_bottleneck_report`), fires a `report_endpoint_problems`
with `problem: 'STRESS'`. -/

def HOUR_IN_MILI : Nat := 3600000

def STREAM_ITEM_TIMEOUT : String := "OBJECT_IO_STREAM_ITEM_TIMEOUT"

/-- `_handle_semaphore_errors` given the stored
`_last_io_bottleneck_report`, the caught error code and the current
`Date.now()`.  Returns the new `_last_io_bottleneck_report`, the problem
of the emitted `report_endpoint_problems` (if any), and the re-raised
error code (if any). -/
def handle_semaphore_errors (last_report : Nat) (err_code : String) (now : Nat) :
    Nat × Option String × Option String :=
  if err_code = STREAM_ITEM_TIMEOUT then
    if now - last_report ≥ HOUR_IN_MILI then
      (now, some "STRESS", some STREAM_ITEM_TIMEOUT)
    else
      (last_report, none, some STREAM_ITEM_TIMEOUT)
  else (last_report, none, none)

/-! ## Range utilities and the read cache (`ObjectIO._init_read_cache`)

`range_utils` (`src/util/range_utils.js`, not among the analysed
sources) is modelled from the spec: the aligned range of `p` is
`[floor(p/ALIGN)*ALIGN, floor(p/ALIGN)*ALIGN + ALIGN)` and
`intersection` is the usual half-open range intersection (null when
empty). -/

/-- Modelled from the spec: `range_utils.align_down`. -/
def align_down (p align : Nat) : Nat := p / align * align

/-- Modelled from the spec: `range_utils.intersection` on half-open
ranges, `none` when empty. -/
def intersection (s1 e1 s2 e2 : Nat) : Option (Nat × Nat) :=
  if min e1 e2 ≤ max s1 s2 then none else some (max s1 s2, min e1 e2)

/-- The object metadata fields read by object_io.js
(`read_object_md` / `read_object_mappings` results). -/
structure ObjectMD where
  obj_id : String
  etag : String
  size : Nat
  create_time : Nat
  content_type : String
  upload_size : Nat
deriving Repr, DecidableEq

/-- A read-cache value as produced by `read_object`: the object metadata
snapshot plus the loaded aligned buffer (null on EOF/hole). -/
structure CacheData where
  object_md : ObjectMD
  buffer : Option (List Nat)
deriving Repr, DecidableEq

/-- The `validate` callback of `_init_read_cache`: compare the fresh
`read_object_md` result with the stored snapshot on `obj_id`, `etag`,
`size` and `create_time`. -/
def validate_entry (data : CacheData) (object_md : ObjectMD) : Bool :=
  decide (object_md.obj_id = data.object_md.obj_id) &&
  decide (object_md.etag = data.object_md.etag) &&
  decide (object_md.size = data.object_md.size) &&
  decide (object_md.create_time = data.object_md.create_time)

/-- The `make_val` callback of `_init_read_cache`: null buffer stays
null; otherwise slice the aligned buffer to its intersection with the
requested range (null when the intersection is empty). -/
def make_val (align : Nat) (data : CacheData) (pstart pend : Nat) :
    Option (List Nat) :=
  match data.buffer with
  | none => none
  | some buffer =>
    let start := align_down pstart align
    let aend := start + align
    match intersection start aend pstart pend with
    | none => none
    | some (is, ie) => some ((buffer.drop (is - start)).take (ie - is))

/-- Modelled from the spec: `LRUCache.get_with_cache`
(`src/util/lru_cache.js` is not among the analysed sources).  On a hit
the entry is validated against the authoritative metadata and any
mismatch invalidates it, so the value served comes from a fresh load;
on a miss the loaded data is stored.  Returns the surviving entry and
the value produced by `make_val`. -/
def get_with_cache (align : Nat) (entry : Option CacheData)
    (fresh_md : ObjectMD) (loaded : CacheData) (pstart pend : Nat) :
    Option CacheData × Option (List Nat) :=
  match entry with
  | some data =>
    if validate_entry data fresh_md then (some data, make_val align data pstart pend)
    else (some loaded, make_val align loaded pstart pend)
  | none => (some loaded, make_val align loaded pstart pend)

/-! ## Range assembly (`combine_parts_buffers_in_range`) -/

/-- A part as consumed by `combine_parts_buffers_in_range`: its object
range `[pstart, pend)`, the optional `chunk_offset` (absent = 0, and
`if (part.chunk_offset)` makes 0 behave exactly like absent), and the
decoded `part.chunk.data`. -/
structure PartBuf where
  pstart : Nat
  pend : Nat
  chunk_offset : Nat
  data : List Nat
deriving Repr, DecidableEq

/-- The `_.forEach(parts, ...)` body of `combine_parts_buffers_in_range`,
threading the current position and the collected buffer slices. -/
def combine_step (pend_total : Nat) (acc : Nat × List (List Nat)) (part : PartBuf) :
    Nat × List (List Nat) :=
  match intersection part.pstart part.pend acc.1 pend_total with
  | none => acc
  | some (is, ie) =>
    let bstart := is - part.pstart + part.chunk_offset
    let bend := ie - part.pstart + part.chunk_offset
    (ie, acc.2 ++ [(part.data.drop bstart).take (bend - bstart)])

/-- `combine_parts_buffers_in_range(parts, start, end)`: null on an
empty range, errors on no parts / uncovered bytes / short joined
buffer, otherwise the concatenation of the intersecting slices. -/
def combine_parts_buffers_in_range (parts : List PartBuf) (start pend : Nat) :
    Except String (Option (List Nat)) :=
  if pend ≤ start then .ok none
  else if parts.isEmpty then .error "no parts for data"
  else if (parts.foldl (combine_step pend) (start, [])).1 ≠ pend then
    .error "missing parts for data"
  else if (parts.foldl (combine_step pend) (start, [])).2.flatten.length ≠ pend - start then
    .error "short buffer from parts"
  else .ok (some ((parts.foldl (combine_step pend) (start, [])).2.flatten))

/-! ## Fragment reading (`ObjectIO._read_part`, `_read_frags`,
`_read_frag`)

The outcomes of external block reads and of the native decode kernel are
oracle parameters; `_read_frags` is summarized by an oracle
`rf : List Frag → Except String (List Nat)` giving the decoded chunk
data for a fragment set (or the error the read/decode raised). -/

/-- A fragment descriptor: `data_index` / `parity_index` / `lrc_index`
are ≥ 0 for the fragment kind and -1 otherwise (as in the JS objects). -/
structure Frag where
  data_index : Int
  parity_index : Int
  lrc_index : Int
deriving Repr, DecidableEq

/-- JS `Array.prototype.slice(0, e)` with a possibly negative end
index. -/
def jsTake (l : List Frag) (e : Int) : List Frag :=
  l.take (if e < 0 then ((l.length : Int) + e).toNat else e.toNat)

/-- Errors surfaced by `_read_part`: a propagated read/decode error, or
the `assert` failure of verification mode. -/
inductive ReadPartErr where
  | rpc (e : String)
  | assertFail
deriving Repr, DecidableEq

/-- `data_frags` of `_read_part`: the fragments with `data_index >= 0`. -/
def data_frags_of (all_frags : List Frag) : List Frag :=
  all_frags.filter (fun f => 0 ≤ f.data_index)

/-- `parity_frags` of `_read_part`: the fragments with
`parity_index >= 0`. -/
def parity_frags_of (all_frags : List Frag) : List Frag :=
  all_frags.filter (fun f => 0 ≤ f.parity_index)

/-- `verify_parity_frags` of `_read_part`: the parity fragments plus the
minimum number of data fragments needed
(`data_frags.slice(0, data_frags.length - parity_frags.length)`). -/
def verify_set_of (all_frags : List Frag) : List Frag :=
  parity_frags_of all_frags ++
    jsTake (data_frags_of all_frags)
      (((data_frags_of all_frags).length : Int) - ((parity_frags_of all_frags).length : Int))

/-- `ObjectIO._read_part`, with `rf` the behaviour of `_read_frags` on a
fragment set.  Returns the final outcome together with the trace of
fragment sets passed to `_read_frags`, in call order. -/
def read_part (verification_mode : Bool) (all_frags : List Frag)
    (rf : List Frag → Except String (List Nat)) :
    Except ReadPartErr (List Nat) × List (List Frag) :=
  match rf (data_frags_of all_frags) with
  | .error e =>
    if verification_mode then (.error (.rpc e), [data_frags_of all_frags])
    else if (data_frags_of all_frags).length = all_frags.length then
      (.error (.rpc e), [data_frags_of all_frags])
    else
      match rf all_frags with
      | .ok d => (.ok d, [data_frags_of all_frags, all_frags])
      | .error e2 => (.error (.rpc e2), [data_frags_of all_frags, all_frags])
  | .ok d =>
    if verification_mode then
      match rf (verify_set_of all_frags) with
      | .ok d2 =>
        if d2 = d then (.ok d2, [data_frags_of all_frags, verify_set_of all_frags])
        else (.error .assertFail, [data_frags_of all_frags, verify_set_of all_frags])
      | .error e2 => (.error (.rpc e2), [data_frags_of all_frags, verify_set_of all_frags])
    else (.ok d, [data_frags_of all_frags])

/-- Promise `catch`: recover from an error with a handler. -/
def pcatch {ε α : Type} (x : Except ε α) (h : ε → Except ε α) : Except ε α :=
  match x with
  | .ok a => .ok a
  | .error e => h e

/-- The `read_next_block` recursion of `_read_frag` (non-verification
mode), with `outcomes` the per-replica-block read results in block-list
order.  Each failed block read is reported
(`_report_error_on_object_read` re-raises the original error) and the
following `catch` advances to the next block.  Returns the promise
outcome (the fragment data, `none` when every block failed) and the
reported errors in order. -/
def read_next_block (outcomes : List (Except String (List Nat))) :
    Except String (Option (List Nat)) × List String :=
  match outcomes with
  | [] => (.ok none, [])
  | .ok b :: _ => (.ok (some b), [])
  | .error e :: rest =>
    let r := read_next_block rest
    (pcatch (Except.error e) (fun _ => r.1), e :: r.2)

/-- `_read_frag` (non-verification mode): skip when the fragment already
has data or has no block list, else try the replica blocks
sequentially. -/
def read_frag (existing_data : Option (List Nat))
    (blocks : Option (List (Except String (List Nat)))) :
    Except String (Option (List Nat)) × List String :=
  match existing_data with
  | some d => (.ok (some d), [])
  | none =>
    match blocks with
    | none => (.ok none, [])
    | some outcomes => read_next_block outcomes

/-- The first successful block outcome, if any. -/
def first_ok (outcomes : List (Except String (List Nat))) : Option (List Nat) :=
  match outcomes with
  | [] => none
  | .ok b :: _ => some b
  | .error _ :: rest => first_ok rest

/-- The errors of the blocks tried before the first success. -/
def errs_before (outcomes : List (Except String (List Nat))) : List String :=
  match outcomes with
  | [] => []
  | .ok _ :: _ => []
  | .error e :: rest => e :: errs_before rest

/-- Collect the per-fragment promise results of `P.map` in
`_read_frags`: any rejection propagates. -/
def collect_frags : List (Except String (Option (List Nat))) →
    Except String (List (Option (List Nat)))
  | [] => .ok []
  | x :: rest =>
    match x with
    | .error e => .error e
    | .ok a =>
      match collect_frags rest with
      | .error e => .error e
      | .ok as => .ok (a :: as)

/-- `_read_frags` (non-verification mode) with per-fragment block
outcomes and the decode kernel (`nb_native().chunk_coder`) as an oracle
over the possibly-incomplete fragment data. -/
def read_frags_m (frag_blocks : List (List (Except String (List Nat))))
    (decoder : List (Option (List Nat)) → Except String (List Nat)) :
    Except String (List Nat) :=
  match collect_frags (frag_blocks.map (fun bs => (read_next_block bs).1)) with
  | .error e => .error e
  | .ok datas => decoder datas

/-! ## The boundary rule stated as the claim states it (for C1)

These definitions restate the boundary rule by recomputing the rolling
hash at each candidate position from scratch, scanning positions in
order inside the current chunk, so that they can be compared with the
incremental single pass of `_next_point`. -/

/-- Least `p` with `lo ≤ p < lo + n` satisfying `cond`, scanning
upward. -/
def firstMatch (cond : Nat → Bool) (lo : Nat) : Nat → Option Nat
  | 0 => none
  | n + 1 => if cond lo then some lo else firstMatch cond (lo + 1) n

/-- The splitter's rolling hash at position `p` of a fresh chunk whose
bytes are `d`: bytes below `min_chunk` are skipped without hashing, so
the hash at `p` is the rolling state after shifting in the bytes at
positions `min_chunk … p-1` starting from the zeroed window. -/
def chunk_hash (upd : Nat → Nat → Nat → Nat) (min_chunk : Nat) (d : List Nat)
    (p : Nat) : Nat :=
  (roll upd ⟨List.replicate window_len 0, 0, 0⟩ ((d.drop min_chunk).take (p - min_chunk))).hash

/-- `(hash &&& mask) = mask` at position `p`, with
`mask = 2^avg_chunk_bits - 1`. -/
def hash_cond (upd : Nat → Nat → Nat → Nat) (min_chunk avg_chunk_bits : Nat)
    (d : List Nat) (p : Nat) : Bool :=
  chunk_hash upd min_chunk d p &&& (2 ^ avg_chunk_bits - 1) = 2 ^ avg_chunk_bits - 1

/-- The boundary position of a fresh chunk as claim C1 states it: the
first position `p ≥ min_chunk` (and reachable within the available
data and `max_chunk`) with `(hash &&& mask) = mask` or `p = max_chunk`. -/
def c1_claimed_boundary (upd : Nat → Nat → Nat → Nat)
    (min_chunk max_chunk avg_chunk_bits : Nat) (d : List Nat) : Option Nat :=
  firstMatch
    (fun p => hash_cond upd min_chunk avg_chunk_bits d p || decide (p = max_chunk))
    min_chunk (min d.length max_chunk + 1 - min_chunk)

/-- The amended boundary rule: a hash match declares a boundary only at
positions strictly above `min_chunk` (the rolling hash is first
consulted after the byte at position `min_chunk` has been shifted in);
the `p = max_chunk` rule is unchanged. -/
def c1_amended_boundary (upd : Nat → Nat → Nat → Nat)
    (min_chunk max_chunk avg_chunk_bits : Nat) (d : List Nat) : Option Nat :=
  firstMatch
    (fun p => (decide (min_chunk < p) && hash_cond upd min_chunk avg_chunk_bits d p)
      || decide (p = max_chunk))
    min_chunk (min d.length max_chunk + 1 - min_chunk)

/-- The boundary position the code declares for a fresh chunk with
bytes `d`: the `_chunk_pos` recorded when `_next_point` reports a
boundary (relative to the start of the chunk), `none` when it reports
no boundary. -/
def split_point (upd : Nat → Nat → Nat → Nat)
    (min_chunk max_chunk avg_chunk_bits : Nat) (d : List Nat) : Option Nat :=
  match next_point upd (mkSplitter min_chunk max_chunk avg_chunk_bits false false) d with
  | (true, s, _) => some s.chunk_pos
  | (false, _, _) => none

/-! # Theorems -/

/-! ## C6: semaphore timeout handling -/

/-- C6: whenever the stream byte semaphore acquisition times out (error
code `OBJECT_IO_STREAM_ITEM_TIMEOUT`), `_handle_semaphore_errors`
re-raises `STREAM_ITEM_TIMEOUT` to the caller, and emits a
`report_endpoint_problems` with problem `STRESS` at most once per hour:
the report fires exactly when at least 3600000 ms have passed since the
last report; after a report at `t₁`, a second timeout within 3600000 ms
triggers no new report, while the first timeout after that interval
does. -/
theorem c6_stream_timeout_stress_report (last t₁ t₂ l₁ l₂ : Nat)
    (rep₁ rep₂ thr₁ thr₂ : Option String)
    (h₁ : handle_semaphore_errors last STREAM_ITEM_TIMEOUT t₁ = (l₁, rep₁, thr₁))
    (h₂ : handle_semaphore_errors l₁ STREAM_ITEM_TIMEOUT t₂ = (l₂, rep₂, thr₂)) :
    thr₁ = some STREAM_ITEM_TIMEOUT ∧
    thr₂ = some STREAM_ITEM_TIMEOUT ∧
    (rep₁ = some "STRESS" ↔ HOUR_IN_MILI ≤ t₁ - last) ∧
    (rep₁ = some "STRESS" → t₂ - t₁ < HOUR_IN_MILI → rep₂ = none) ∧
    (rep₁ = some "STRESS" → HOUR_IN_MILI ≤ t₂ - t₁ → rep₂ = some "STRESS") := by
  unfold handle_semaphore_errors at h₁ h₂
  rw [if_pos rfl] at h₁ h₂
  by_cases hc₁ : HOUR_IN_MILI ≤ t₁ - last
  · rw [if_pos hc₁] at h₁
    simp only [Prod.mk.injEq] at h₁
    obtain ⟨hl₁, hr₁, ht₁⟩ := h₁
    subst hl₁
    by_cases hc₂ : HOUR_IN_MILI ≤ t₂ - t₁
    · rw [if_pos hc₂] at h₂
      simp only [Prod.mk.injEq] at h₂
      exact ⟨ht₁.symm, h₂.2.2.symm, by simp [← hr₁, hc₁],
        fun _ hlt => absurd hc₂ (by omega), fun _ _ => h₂.2.1.symm⟩
    · rw [if_neg hc₂] at h₂
      simp only [Prod.mk.injEq] at h₂
      exact ⟨ht₁.symm, h₂.2.2.symm, by simp [← hr₁, hc₁],
        fun _ _ => h₂.2.1.symm, fun _ hge => absurd hge hc₂⟩
  · rw [if_neg hc₁] at h₁
    simp only [Prod.mk.injEq] at h₁
    obtain ⟨hl₁, hr₁, ht₁⟩ := h₁
    have hthr₂ : thr₂ = some STREAM_ITEM_TIMEOUT := by
      by_cases hc₂ : HOUR_IN_MILI ≤ t₂ - l₁
      · rw [if_pos hc₂] at h₂
        simp only [Prod.mk.injEq] at h₂
        exact h₂.2.2.symm
      · rw [if_neg hc₂] at h₂
        simp only [Prod.mk.injEq] at h₂
        exact h₂.2.2.symm
    refine ⟨ht₁.symm, hthr₂, by simp [← hr₁, hc₁], ?_, ?_⟩
    · intro habs; rw [← hr₁] at habs; simp at habs
    · intro habs; rw [← hr₁] at habs; simp at habs

/-- Witness for C6 at `last = 0`, `t₁ = 3600000`, `t₂ = 3600100`:
the first timeout reports, the second (100 ms later) does not, and both
re-raise the timeout error. -/
theorem c6_stream_timeout_stress_report_witness :
    (some STREAM_ITEM_TIMEOUT : Option String) = some STREAM_ITEM_TIMEOUT ∧
    (some STREAM_ITEM_TIMEOUT : Option String) = some STREAM_ITEM_TIMEOUT ∧
    ((some "STRESS" : Option String) = some "STRESS" ↔ HOUR_IN_MILI ≤ 3600000 - 0) ∧
    ((some "STRESS" : Option String) = some "STRESS" →
      3600100 - 3600000 < HOUR_IN_MILI → (none : Option String) = none) ∧
    ((some "STRESS" : Option String) = some "STRESS" →
      HOUR_IN_MILI ≤ 3600100 - 3600000 → (none : Option String) = some "STRESS") :=
  c6_stream_timeout_stress_report 0 3600000 3600100 3600000 3600000
    (some "STRESS") none (some STREAM_ITEM_TIMEOUT) (some STREAM_ITEM_TIMEOUT)
    (by decide) (by decide)

/-! ## C5: contiguity of the generated parts -/

theorem upload_batches_eq_flatten (a : UploadAcc) (batches : List (List Nat)) :
    upload_batches a batches = upload_chunks a batches.flatten := by
  induction batches generalizing a with
  | nil => rfl
  | cons b t ih =>
    show upload_batches (upload_chunks a b) t = _
    rw [ih, List.flatten_cons]
    unfold upload_chunks
    rw [List.foldl_append]

theorem spec_parts_append_one (sizes : List Nat) (x : Nat) :
    spec_parts (sizes ++ [x])
      = spec_parts sizes ++ [⟨sizes.sum, sizes.sum + x, sizes.length⟩] := by
  unfold spec_parts
  rw [List.length_append, List.length_singleton, List.range_succ, List.map_append]
  congr 1
  · apply List.map_congr_left
    intro i hi
    have hi' : i < sizes.length := List.mem_range.mp hi
    rw [List.take_append_of_le_length (by omega), List.take_append_of_le_length (by omega)]
  · simp only [List.map_cons, List.map_nil, List.cons.injEq, and_true]
    rw [List.take_append_of_le_length (le_refl _), List.take_of_length_le (le_refl _)]
    rw [show sizes.length + 1 = (sizes ++ [x]).length by simp]
    rw [List.take_length]
    simp

theorem upload_chunks_closed (sizes : List Nat) :
    upload_chunks init_upload_acc sizes
      = ⟨sizes.sum, sizes.length, sizes.sum, sizes.length, spec_parts sizes⟩ := by
  induction sizes using List.reverseRecOn with
  | nil => rfl
  | append_singleton sizes x ih =>
    unfold upload_chunks at ih ⊢
    rw [List.foldl_append, ih]
    simp [upload_chunk_step, spec_parts_append_one]

theorem spec_parts_getD (sizes : List Nat) (i : Nat) (h : i < sizes.length) :
    (spec_parts sizes).getD i ⟨0, 0, 0⟩
      = ⟨(sizes.take i).sum, (sizes.take (i + 1)).sum, i⟩ := by
  unfold spec_parts
  rw [List.getD_eq_getElem?_getD, List.getElem?_map, List.getElem?_range h]
  rfl

theorem sum_take_succ_getD (sizes : List Nat) (i : Nat) (h : i < sizes.length) :
    (sizes.take (i + 1)).sum = (sizes.take i).sum + sizes.getD i 0 := by
  rw [List.take_succ, List.sum_append, List.getD_eq_getElem?_getD]
  cases hx : sizes[i]? with
  | none => exact absurd (List.getElem?_eq_getElem h) (by rw [hx]; simp)
  | some v => simp [hx]

/-- C5: starting from `params.start = 0`, `params.seq = 0` and
`complete_params.size = 0` (as set by `_upload_stream_internal`), the
parts generated by the successive `_upload_chunks` calls of one upload
are contiguous and ordered — each part spans `[start, start+size)` of
its chunk, the first part starts at 0, each later part starts at the
previous part's end, and `seq` is strictly increasing — and
`complete_params.size` accumulates exactly the sum of all chunk
sizes. -/
theorem c5_upload_chunks_parts_contiguous (batches : List (List Nat)) :
    (upload_batches init_upload_acc batches).parts = spec_parts batches.flatten ∧
    (upload_batches init_upload_acc batches).size = batches.flatten.sum ∧
    (∀ i, i < batches.flatten.length →
      ((upload_batches init_upload_acc batches).parts.getD i ⟨0, 0, 0⟩).pend
        = ((upload_batches init_upload_acc batches).parts.getD i ⟨0, 0, 0⟩).pstart
          + batches.flatten.getD i 0 ∧
      ((upload_batches init_upload_acc batches).parts.getD i ⟨0, 0, 0⟩).seq = i) ∧
    (∀ i, i + 1 < batches.flatten.length →
      ((upload_batches init_upload_acc batches).parts.getD (i + 1) ⟨0, 0, 0⟩).pstart
        = ((upload_batches init_upload_acc batches).parts.getD i ⟨0, 0, 0⟩).pend ∧
      ((upload_batches init_upload_acc batches).parts.getD i ⟨0, 0, 0⟩).seq
        < ((upload_batches init_upload_acc batches).parts.getD (i + 1) ⟨0, 0, 0⟩).seq) ∧
    (0 < batches.flatten.length →
      ((upload_batches init_upload_acc batches).parts.getD 0 ⟨0, 0, 0⟩).pstart = 0) := by
  rw [upload_batches_eq_flatten, upload_chunks_closed]
  refine ⟨rfl, rfl, ?_, ?_, ?_⟩
  · intro i hi
    rw [spec_parts_getD _ _ hi, sum_take_succ_getD _ _ hi]
    exact ⟨rfl, rfl⟩
  · intro i hi
    rw [spec_parts_getD _ _ hi, spec_parts_getD _ _ (by omega)]
    exact ⟨rfl, Nat.lt_succ_self i⟩
  · intro hlen
    rw [spec_parts_getD _ _ hlen]
    rfl

/-- Witness for C5 on the batches `[[2], [3, 4]]`: part 1 starts where
part 0 ends, with increasing sequence numbers, and the accumulated size
is 9. -/
theorem c5_upload_chunks_parts_contiguous_witness :
    (0 + 1 < ([[2], [3, 4]] : List (List Nat)).flatten.length) ∧
    ((upload_batches init_upload_acc [[2], [3, 4]]).parts.getD 1 ⟨0, 0, 0⟩).pstart
      = ((upload_batches init_upload_acc [[2], [3, 4]]).parts.getD 0 ⟨0, 0, 0⟩).pend ∧
    ((upload_batches init_upload_acc [[2], [3, 4]]).parts.getD 0 ⟨0, 0, 0⟩).seq
      < ((upload_batches init_upload_acc [[2], [3, 4]]).parts.getD 1 ⟨0, 0, 0⟩).seq :=
  ⟨by decide, (c5_upload_chunks_parts_contiguous [[2], [3, 4]]).2.2.2.1 0 (by decide)⟩

/-! ## C9: range assembly -/

/-- C9: `combine_parts_buffers_in_range` over `[start, end)` returns
null when `end ≤ start`; throws when the parts list is empty, when after
walking the parts some requested byte is not covered (`pos ≠ end`), or
when the joined buffer's length differs from `end - start`; otherwise it
returns a buffer of exactly `end - start` bytes formed by concatenating
the intersecting slices of each part's chunk data (each slice shifted by
`chunk_offset`, per `combine_step`). -/
theorem c9_combine_parts_buffers_in_range (parts : List PartBuf) (start pend : Nat) :
    (pend ≤ start → combine_parts_buffers_in_range parts start pend = .ok none) ∧
    (start < pend → parts = [] →
      combine_parts_buffers_in_range parts start pend = .error "no parts for data") ∧
    (start < pend → parts ≠ [] →
      (parts.foldl (combine_step pend) (start, [])).1 ≠ pend →
      combine_parts_buffers_in_range parts start pend = .error "missing parts for data") ∧
    (start < pend → parts ≠ [] →
      (parts.foldl (combine_step pend) (start, [])).1 = pend →
      (parts.foldl (combine_step pend) (start, [])).2.flatten.length ≠ pend - start →
      combine_parts_buffers_in_range parts start pend = .error "short buffer from parts") ∧
    (∀ b, combine_parts_buffers_in_range parts start pend = .ok (some b) →
      b.length = pend - start ∧
      b = (parts.foldl (combine_step pend) (start, [])).2.flatten) := by
  refine ⟨?_, ?_, ?_, ?_, ?_⟩
  · intro h
    unfold combine_parts_buffers_in_range
    rw [if_pos h]
  · intro h hp
    unfold combine_parts_buffers_in_range
    rw [if_neg (by omega), if_pos (by simp [hp])]
  · intro h hp hw
    unfold combine_parts_buffers_in_range
    rw [if_neg (by omega), if_neg (by simpa using hp), if_pos hw]
  · intro h hp hw hl
    unfold combine_parts_buffers_in_range
    rw [if_neg (by omega), if_neg (by simpa using hp), if_neg (by simpa using hw), if_pos hl]
  · intro b hb
    unfold combine_parts_buffers_in_range at hb
    split_ifs at hb with h1 h2 h3 h4
    all_goals try exact Option.noConfusion (Except.ok.inj hb)
    simp only [Except.ok.injEq, Option.some.injEq] at hb
    have hlen : (parts.foldl (combine_step pend) (start, [])).2.flatten.length
        = pend - start := by omega
    exact ⟨hb ▸ hlen, hb.symm⟩

/-- Witness for C9: one part covering `[0, 3)` with data `[10, 20, 30]`
assembles the full range into a buffer of length 3. -/
theorem c9_combine_parts_buffers_in_range_witness :
    (([10, 20, 30] : List Nat)).length = 3 - 0 ∧
    ([10, 20, 30] : List Nat)
      = (([⟨0, 3, 0, [10, 20, 30]⟩] : List PartBuf).foldl (combine_step 3) (0, [])).2.flatten :=
  (c9_combine_parts_buffers_in_range [⟨0, 3, 0, [10, 20, 30]⟩] 0 3).2.2.2.2
    [10, 20, 30] (by rfl)

/-! ## C7: read cache validation and slicing -/

theorem intersection_eq_some {s1 e1 s2 e2 is ie : Nat}
    (h : intersection s1 e1 s2 e2 = some (is, ie)) :
    is = max s1 s2 ∧ ie = min e1 e2 ∧ max s1 s2 < min e1 e2 := by
  unfold intersection at h
  by_cases hc : min e1 e2 ≤ max s1 s2
  · rw [if_pos hc] at h
    exact absurd h (by simp)
  · rw [if_neg hc] at h
    have h' := Option.some.inj h
    have h1 := congrArg Prod.fst h'
    have h2 := congrArg Prod.snd h'
    simp only at h1 h2
    exact ⟨h1.symm, h2.symm, by omega⟩

theorem intersection_eq_none {s1 e1 s2 e2 : Nat}
    (h : intersection s1 e1 s2 e2 = none) : min e1 e2 ≤ max s1 s2 := by
  unfold intersection at h
  split_ifs at h with hc
  exact hc

/-- C7: a cached range entry is served on a hit only if its stored
object-metadata snapshot still matches the authoritative metadata: the
`validate` step compares exactly the four fields `obj_id`, `etag`,
`size` and `create_time` against a fresh `read_object_md` result, and
any mismatch invalidates the entry so the read is served from a fresh
load; the returned value is the intersection slice of the aligned
cached buffer with the requested range, and null when the intersection
is empty or the buffer is null (EOF). -/
theorem c7_read_cache_validate_and_slice (align : Nat) (entry : CacheData)
    (fresh_md : ObjectMD) (loaded : CacheData) (pstart pend : Nat) :
    (validate_entry entry fresh_md = true ↔
      (fresh_md.obj_id = entry.object_md.obj_id ∧
       fresh_md.etag = entry.object_md.etag ∧
       fresh_md.size = entry.object_md.size ∧
       fresh_md.create_time = entry.object_md.create_time)) ∧
    (validate_entry entry fresh_md = false →
      get_with_cache align (some entry) fresh_md loaded pstart pend
        = (some loaded, make_val align loaded pstart pend)) ∧
    (validate_entry entry fresh_md = true →
      get_with_cache align (some entry) fresh_md loaded pstart pend
        = (some entry, make_val align entry pstart pend)) ∧
    (entry.buffer = none → make_val align entry pstart pend = none) ∧
    (intersection (align_down pstart align) (align_down pstart align + align)
        pstart pend = none →
      make_val align entry pstart pend = none) ∧
    (∀ buf is ie, entry.buffer = some buf →
      intersection (align_down pstart align) (align_down pstart align + align)
          pstart pend = some (is, ie) →
      make_val align entry pstart pend
        = some ((buf.drop (is - align_down pstart align)).take (ie - is)) ∧
      (buf.length = align →
        ((buf.drop (is - align_down pstart align)).take (ie - is)).length = ie - is)) := by
  refine ⟨?_, ?_, ?_, ?_, ?_, ?_⟩
  · unfold validate_entry
    simp [Bool.and_eq_true, decide_eq_true_eq, and_assoc]
  · intro h
    simp [get_with_cache, h]
  · intro h
    simp [get_with_cache, h]
  · intro h
    simp [make_val, h]
  · intro h
    cases hb : entry.buffer with
    | none => simp [make_val, hb]
    | some buf => simp [make_val, hb, h]
  · intro buf is ie hbuf hint
    obtain ⟨his, hie, hlt⟩ := intersection_eq_some hint
    constructor
    · simp [make_val, hbuf, hint]
    · intro hlen
      rw [List.length_take, List.length_drop, hlen]
      have hisge : align_down pstart align ≤ is := by omega
      have hiele : ie ≤ align_down pstart align + align := by omega
      omega

/-- Witness for C7: an entry whose `etag` snapshot no longer matches is
invalidated and the fresh load is served. -/
theorem c7_read_cache_validate_and_slice_witness :
    get_with_cache 8
      (some ⟨⟨"o1", "e1", 10, 5, "text", 0⟩, some [1, 2, 3, 4, 5, 6, 7, 8]⟩)
      ⟨"o1", "e2", 10, 5, "text", 0⟩
      ⟨⟨"o1", "e2", 10, 5, "text", 0⟩, some [9, 9, 9, 9, 9, 9, 9, 9]⟩ 2 5
      = (some ⟨⟨"o1", "e2", 10, 5, "text", 0⟩, some [9, 9, 9, 9, 9, 9, 9, 9]⟩,
         make_val 8 ⟨⟨"o1", "e2", 10, 5, "text", 0⟩, some [9, 9, 9, 9, 9, 9, 9, 9]⟩ 2 5) :=
  (c7_read_cache_validate_and_slice 8
    ⟨⟨"o1", "e1", 10, 5, "text", 0⟩, some [1, 2, 3, 4, 5, 6, 7, 8]⟩
    ⟨"o1", "e2", 10, 5, "text", 0⟩
    ⟨⟨"o1", "e2", 10, 5, "text", 0⟩, some [9, 9, 9, 9, 9, 9, 9, 9]⟩ 2 5).2.1
    (by decide)

/-! ## C8: data fragments first, one retry with all fragments -/

/-- C8: `_read_part` reads the data fragments first (the first
`_read_frags` invocation is on `data_frags`); if that read/decode
fails then, outside verification mode and only when the chunk has
fragments beyond the data fragments, it is retried exactly once with
all fragments (data + parity + LRC) and that outcome is surfaced; in
verification mode the data-fragment failure is raised immediately; and
in verification mode a successful data read is followed by a decode
from the parity-containing fragment set which is asserted byte-equal to
the data-fragment decode. -/
theorem c8_read_part_data_first_retry_all (vm : Bool) (all_frags : List Frag)
    (rf : List Frag → Except String (List Nat)) :
    ((read_part vm all_frags rf).2.head? = some (data_frags_of all_frags)) ∧
    (∀ e, rf (data_frags_of all_frags) = .error e → vm = true →
      read_part vm all_frags rf = (.error (.rpc e), [data_frags_of all_frags])) ∧
    (∀ e, rf (data_frags_of all_frags) = .error e → vm = false →
      (data_frags_of all_frags).length = all_frags.length →
      read_part vm all_frags rf = (.error (.rpc e), [data_frags_of all_frags])) ∧
    (∀ e, rf (data_frags_of all_frags) = .error e → vm = false →
      (data_frags_of all_frags).length ≠ all_frags.length →
      read_part vm all_frags rf
        = ((rf all_frags).mapError ReadPartErr.rpc,
           [data_frags_of all_frags, all_frags])) ∧
    (∀ d, rf (data_frags_of all_frags) = .ok d → vm = false →
      read_part vm all_frags rf = (.ok d, [data_frags_of all_frags])) ∧
    (∀ d d2, rf (data_frags_of all_frags) = .ok d → vm = true →
      rf (verify_set_of all_frags) = .ok d2 →
      read_part vm all_frags rf
        = ((if d2 = d then .ok d2 else .error .assertFail),
           [data_frags_of all_frags, verify_set_of all_frags])) := by
  refine ⟨?_, ?_, ?_, ?_, ?_, ?_⟩
  · cases hrf : rf (data_frags_of all_frags) with
    | error e =>
      cases vm with
      | true => simp [read_part, hrf]
      | false =>
        by_cases hlen : (data_frags_of all_frags).length = all_frags.length
        · simp [read_part, hrf, hlen]
        · cases hra : rf all_frags with
          | ok d => simp [read_part, hrf, hlen, hra]
          | error e2 => simp [read_part, hrf, hlen, hra]
    | ok d =>
      cases vm with
      | true =>
        cases hrv : rf (verify_set_of all_frags) with
        | error e2 => simp [read_part, hrf, hrv]
        | ok d2 =>
          by_cases hd : d2 = d
          · simp [read_part, hrf, hrv, hd]
          · simp [read_part, hrf, hrv, hd]
      | false => simp [read_part, hrf]
  · intro e hrf hv
    subst hv
    simp [read_part, hrf]
  · intro e hrf hv hlen
    subst hv
    simp [read_part, hrf, hlen]
  · intro e hrf hv hlen
    subst hv
    cases hra : rf all_frags with
    | ok d => simp [read_part, hrf, hlen, hra, Except.mapError]
    | error e2 => simp [read_part, hrf, hlen, hra, Except.mapError]
  · intro d hrf hv
    subst hv
    simp [read_part, hrf]
  · intro d d2 hrf hv hrv
    subst hv
    by_cases hd : d2 = d
    · simp [read_part, hrf, hrv, hd]
    · simp [read_part, hrf, hrv, hd]

/-- Witness for C8: one data and one parity fragment; the data-fragment
read fails, the read is retried with all fragments and succeeds. -/
theorem c8_read_part_data_first_retry_all_witness :
    read_part false [⟨0, -1, -1⟩, ⟨-1, 0, -1⟩]
        (fun fs => if fs = [⟨0, -1, -1⟩] then .error "x" else .ok [7])
      = (((if ([⟨0, -1, -1⟩, ⟨-1, 0, -1⟩] : List Frag) = [⟨0, -1, -1⟩] then
            (.error "x" : Except String (List Nat)) else .ok [7]).mapError ReadPartErr.rpc),
         [data_frags_of [⟨0, -1, -1⟩, ⟨-1, 0, -1⟩], [⟨0, -1, -1⟩, ⟨-1, 0, -1⟩]]) :=
  (c8_read_part_data_first_retry_all false [⟨0, -1, -1⟩, ⟨-1, 0, -1⟩]
    (fun fs => if fs = [⟨0, -1, -1⟩] then .error "x" else .ok [7])).2.2.2.1
    "x" (by rfl) rfl (by decide)

/-! ## C10: sequential replica reads never reject -/

theorem read_next_block_eq (outcomes : List (Except String (List Nat))) :
    read_next_block outcomes = (.ok (first_ok outcomes), errs_before outcomes) := by
  induction outcomes with
  | nil => rfl
  | cons o rest ih =>
    cases o with
    | ok b => rfl
    | error e =>
      unfold read_next_block first_ok errs_before
      rw [ih]
      rfl

theorem collect_frags_of_read (frag_blocks : List (List (Except String (List Nat)))) :
    collect_frags (frag_blocks.map (fun bs => (read_next_block bs).1))
      = .ok (frag_blocks.map first_ok) := by
  induction frag_blocks with
  | nil => rfl
  | cons bs t ih =>
    unfold collect_frags
    rw [List.map_cons, List.map_cons]
    simp only
    rw [read_next_block_eq, ih]

/-- C10: in non-verification mode `_read_frag` tries the replica blocks
strictly sequentially — the fragment data is the first successful block
outcome and every failure before it is reported — and even when every
replica block fails the promise resolves (it does not reject) with the
fragment data unset after all failures are reported; a missing fragment
only surfaces later, when `_read_frags` hands the (possibly incomplete)
fragment data to the decode kernel, whose outcome is the only source of
failure. -/
theorem c10_read_frag_sequential_resolves
    (outcomes : List (Except String (List Nat)))
    (frag_blocks : List (List (Except String (List Nat))))
    (decoder : List (Option (List Nat)) → Except String (List Nat)) :
    read_frag none (some outcomes) = (.ok (first_ok outcomes), errs_before outcomes) ∧
    read_frags_m frag_blocks decoder = decoder (frag_blocks.map first_ok) := by
  constructor
  · show read_next_block outcomes = _
    exact read_next_block_eq outcomes
  · unfold read_frags_m
    rw [collect_frags_of_read]

/-! ## Scanning-loop lemmas for the splitter -/

theorem scan_consume {upd : Nat → Nat → Nat → Nat} {mask mx : Nat}
    {st st' : ScanSt} {cp cp' : Nat} {d r : List Nat} {bd : Bool}
    (h : scan upd mask mx st cp d = (bd, st', cp', r)) :
    cp' + r.length = cp + d.length := by
  induction d generalizing st cp with
  | nil =>
    simp only [scan, Prod.mk.injEq] at h
    obtain ⟨-, -, h3, h4⟩ := h
    subst h3; subst h4
    rfl
  | cons b rest ih =>
    unfold scan at h
    by_cases hg : cp < mx
    · rw [if_pos hg] at h
      by_cases hh : (scan_step upd st b).hash &&& mask = mask
      · rw [if_pos hh] at h
        simp only [Prod.mk.injEq] at h
        obtain ⟨-, -, h3, h4⟩ := h
        subst h3; subst h4
        simp [Nat.add_assoc, Nat.add_comm 1]
      · rw [if_neg hh] at h
        have := ih h
        simp only [List.length_cons]
        omega
    · rw [if_neg hg] at h
      simp only [Prod.mk.injEq] at h
      obtain ⟨-, -, h3, h4⟩ := h
      subst h3; subst h4
      rfl

theorem scan_le {upd : Nat → Nat → Nat → Nat} {mask mx : Nat}
    {st st' : ScanSt} {cp cp' : Nat} {d r : List Nat} {bd : Bool}
    (h : scan upd mask mx st cp d = (bd, st', cp', r)) :
    cp ≤ cp' := by
  induction d generalizing st cp with
  | nil =>
    simp only [scan, Prod.mk.injEq] at h
    omega
  | cons b rest ih =>
    unfold scan at h
    by_cases hg : cp < mx
    · rw [if_pos hg] at h
      by_cases hh : (scan_step upd st b).hash &&& mask = mask
      · rw [if_pos hh] at h
        simp only [Prod.mk.injEq] at h
        omega
      · rw [if_neg hh] at h
        have := ih h
        omega
    · rw [if_neg hg] at h
      simp only [Prod.mk.injEq] at h
      omega

theorem scan_le_max {upd : Nat → Nat → Nat → Nat} {mask mx : Nat}
    {st st' : ScanSt} {cp cp' : Nat} {d r : List Nat} {bd : Bool}
    (h : scan upd mask mx st cp d = (bd, st', cp', r)) :
    cp' ≤ max cp mx := by
  induction d generalizing st cp with
  | nil =>
    simp only [scan, Prod.mk.injEq] at h
    omega
  | cons b rest ih =>
    unfold scan at h
    by_cases hg : cp < mx
    · rw [if_pos hg] at h
      by_cases hh : (scan_step upd st b).hash &&& mask = mask
      · rw [if_pos hh] at h
        simp only [Prod.mk.injEq] at h
        omega
      · rw [if_neg hh] at h
        have := ih h
        omega
    · rw [if_neg hg] at h
      simp only [Prod.mk.injEq] at h
      omega

theorem scan_false_rest {upd : Nat → Nat → Nat → Nat} {mask mx : Nat}
    {st st' : ScanSt} {cp cp' : Nat} {d r : List Nat}
    (h : scan upd mask mx st cp d = (false, st', cp', r)) (hr : r ≠ []) :
    mx ≤ cp' := by
  induction d generalizing st cp with
  | nil =>
    simp only [scan, Prod.mk.injEq] at h
    exact absurd h.2.2.2.symm hr
  | cons b rest ih =>
    unfold scan at h
    by_cases hg : cp < mx
    · rw [if_pos hg] at h
      by_cases hh : (scan_step upd st b).hash &&& mask = mask
      · rw [if_pos hh] at h
        simp only [Prod.mk.injEq] at h
        exact absurd h.1.symm (by simp)
      · rw [if_neg hh] at h
        exact ih h
    · rw [if_neg hg] at h
      simp only [Prod.mk.injEq] at h
      omega

theorem scan_true_progress {upd : Nat → Nat → Nat → Nat} {mask mx : Nat}
    {st st' : ScanSt} {cp cp' : Nat} {d r : List Nat}
    (h : scan upd mask mx st cp d = (true, st', cp', r)) :
    cp < cp' := by
  induction d generalizing st cp with
  | nil =>
    simp only [scan, Prod.mk.injEq] at h
    exact absurd h.1.symm (by simp)
  | cons b rest ih =>
    unfold scan at h
    by_cases hg : cp < mx
    · rw [if_pos hg] at h
      by_cases hh : (scan_step upd st b).hash &&& mask = mask
      · rw [if_pos hh] at h
        simp only [Prod.mk.injEq] at h
        omega
      · rw [if_neg hh] at h
        have := ih h
        omega
    · rw [if_neg hg] at h
      simp only [Prod.mk.injEq] at h
      exact absurd h.1.symm (by simp)

theorem scan_true_append {upd : Nat → Nat → Nat → Nat} {mask mx₁ mx₂ : Nat}
    {st st' : ScanSt} {cp cp' : Nat} {d r e : List Nat}
    (h : scan upd mask mx₁ st cp d = (true, st', cp', r)) (hmx : mx₁ ≤ mx₂) :
    scan upd mask mx₂ st cp (d ++ e) = (true, st', cp', r ++ e) := by
  induction d generalizing st cp with
  | nil =>
    simp only [scan, Prod.mk.injEq] at h
    exact absurd h.1.symm (by simp)
  | cons b rest ih =>
    unfold scan at h
    rw [List.cons_append]
    unfold scan
    by_cases hg : cp < mx₁
    · rw [if_pos hg] at h
      rw [if_pos (by omega)]
      by_cases hh : (scan_step upd st b).hash &&& mask = mask
      · rw [if_pos hh] at h
        rw [if_pos hh]
        simp only [Prod.mk.injEq] at h
        obtain ⟨-, h2, h3, h4⟩ := h
        subst h2; subst h3; subst h4
        rfl
      · rw [if_neg hh] at h
        rw [if_neg hh]
        exact ih h
    · rw [if_neg hg] at h
      simp only [Prod.mk.injEq] at h
      exact absurd h.1.symm (by simp)

theorem scan_false_nil_append {upd : Nat → Nat → Nat → Nat} {mask mx₁ mx₂ : Nat}
    {st st' : ScanSt} {cp cp' : Nat} {d e : List Nat}
    (h : scan upd mask mx₁ st cp d = (false, st', cp', [])) (hmx : mx₁ ≤ mx₂) :
    scan upd mask mx₂ st cp (d ++ e) = scan upd mask mx₂ st' cp' e := by
  induction d generalizing st cp with
  | nil =>
    simp only [scan, Prod.mk.injEq] at h
    obtain ⟨-, h2, h3, -⟩ := h
    subst h2; subst h3
    rw [List.nil_append]
  | cons b rest ih =>
    unfold scan at h
    rw [List.cons_append]
    by_cases hg : cp < mx₁
    · rw [if_pos hg] at h
      by_cases hh : (scan_step upd st b).hash &&& mask = mask
      · rw [if_pos hh] at h
        simp only [Prod.mk.injEq] at h
        exact absurd h.1.symm (by simp)
      · rw [if_neg hh] at h
        conv_lhs => rw [scan]
        rw [if_pos (by omega : cp < mx₂), if_neg hh]
        exact ih h
    · rw [if_neg hg] at h
      simp only [Prod.mk.injEq] at h
      exact absurd h.2.2.2.symm (by simp)

theorem scan_stop_append {upd : Nat → Nat → Nat → Nat} {mask mx : Nat}
    {st st' : ScanSt} {cp cp' : Nat} {d r e : List Nat}
    (h : scan upd mask mx st cp d = (false, st', cp', r)) (hstop : mx ≤ cp') :
    scan upd mask mx st cp (d ++ e) = (false, st', cp', r ++ e) := by
  induction d generalizing st cp with
  | nil =>
    simp only [scan, Prod.mk.injEq] at h
    obtain ⟨-, h2, h3, h4⟩ := h
    subst h2; subst h3; subst h4
    rw [List.nil_append]
    cases e with
    | nil => rfl
    | cons b' rest' =>
      unfold scan
      rw [if_neg (by omega)]
  | cons b rest ih =>
    unfold scan at h
    rw [List.cons_append]
    unfold scan
    by_cases hg : cp < mx
    · rw [if_pos hg] at h
      rw [if_pos hg]
      by_cases hh : (scan_step upd st b).hash &&& mask = mask
      · rw [if_pos hh] at h
        simp only [Prod.mk.injEq] at h
        exact absurd h.1.symm (by simp)
      · rw [if_neg hh] at h
        rw [if_neg hh]
        exact ih h
    · rw [if_neg hg] at h
      simp only [Prod.mk.injEq] at h
      obtain ⟨-, h2, h3, h4⟩ := h
      subst h2; subst h3; subst h4
      rw [if_neg hg, List.cons_append]

/-! ## `_next_point` characterization lemmas -/


theorem next_point_fields {upd : Nat → Nat → Nat → Nat} {s s' : Splitter}
    {d r : List Nat} {bd : Bool} (h : next_point upd s d = (bd, s', r)) :
    s'.min_chunk = s.min_chunk ∧ s'.max_chunk = s.max_chunk ∧
    s'.avg_chunk_bits = s.avg_chunk_bits ∧ s'.calc_md5 = s.calc_md5 ∧
    s'.calc_sha256 = s.calc_sha256 ∧ s'.split_points = s.split_points ∧
    s'.md5_ctx = s.md5_ctx ∧ s'.sha256_ctx = s.sha256_ctx := by
  unfold next_point np_assemble at h
  split at h
  rename_i boundary st cp rest heq
  split_ifs at h with hc <;>
  · simp only [Prod.mk.injEq] at h
    obtain ⟨-, h2, -⟩ := h
    subst h2
    exact ⟨rfl, rfl, rfl, rfl, rfl, rfl, rfl, rfl⟩

theorem next_point_false_state {upd : Nat → Nat → Nat → Nat} {s s' : Splitter}
    {d r : List Nat} (h : next_point upd s d = (false, s', r)) :
    s'.chunk_pos = s.chunk_pos + d.length ∧ s'.chunk_pos < s.max_chunk ∧ r = [] := by
  unfold next_point np_assemble at h
  split at h
  rename_i boundary st cp rest heq
  split_ifs at h with hc
  · simp only [Prod.mk.injEq] at h
    exact absurd h.1.symm (by simp)
  · have hbd : boundary = false := by
      cases boundary
      · rfl
      · exact absurd (by simp) hc
    have hcp : cp < s.max_chunk := by
      by_contra hcp'
      exact hc (by simp; omega)
    subst hbd
    simp only [Prod.mk.injEq] at h
    obtain ⟨-, h2, h3⟩ := h
    have hcp' : s'.chunk_pos = cp := by rw [← h2]
    have htot : cp + rest.length = s.chunk_pos + d.length := by
      by_cases hskip : s.chunk_pos < min (s.chunk_pos + d.length) s.min_chunk
      · rw [if_pos hskip, if_pos hskip] at heq
        have hc2 := scan_consume heq
        rw [List.length_drop] at hc2
        omega
      · rw [if_neg hskip, if_neg hskip] at heq
        exact scan_consume heq
    have hrest : rest = [] := by
      by_contra hne
      have hmxle := scan_false_rest heq hne
      have hpos : 0 < rest.length := List.length_pos.mpr hne
      omega
    subst hrest
    simp only [List.length_nil, Nat.add_zero] at htot
    exact ⟨by omega, by omega, h3.symm⟩

theorem next_point_short {upd : Nat → Nat → Nat → Nat} {s : Splitter} {d : List Nat}
    (hmm : s.min_chunk ≤ s.max_chunk) (h : s.chunk_pos + d.length < s.min_chunk) :
    next_point upd s d = (false, { s with chunk_pos := s.chunk_pos + d.length }, []) := by
  unfold next_point np_assemble
  have hmn : min (s.chunk_pos + d.length) s.min_chunk = s.chunk_pos + d.length := by
    omega
  have hmx : min (s.chunk_pos + d.length) s.max_chunk = s.chunk_pos + d.length := by
    omega
  rw [hmn, hmx]
  by_cases hskip : s.chunk_pos < s.chunk_pos + d.length
  · rw [if_pos hskip, if_pos hskip]
    rw [show s.chunk_pos + d.length - s.chunk_pos = d.length by omega, List.drop_length]
    simp only [scan]
    rw [if_neg (by simp; omega)]
  · have hd : d = [] := by
      cases d with
      | nil => rfl
      | cons x xs => exact absurd (by simp) hskip
    subst hd
    have h0 : s.chunk_pos < s.min_chunk := by simpa using h
    rw [if_neg hskip, if_neg hskip]
    simp only [scan]
    rw [if_neg (by simp only [Bool.false_or, decide_eq_true_eq, ge_iff_le]; omega)]
    simp

theorem next_point_true_bounds {upd : Nat → Nat → Nat → Nat} {s s' : Splitter}
    {d r : List Nat} (hmm : s.min_chunk ≤ s.max_chunk)
    (hinv : s.chunk_pos < s.max_chunk) (h : next_point upd s d = (true, s', r)) :
    s.min_chunk ≤ s'.chunk_pos ∧ s'.chunk_pos ≤ s.max_chunk ∧
    s'.chunk_pos + r.length = s.chunk_pos + d.length ∧ s.chunk_pos < s'.chunk_pos := by
  unfold next_point np_assemble at h
  split at h
  rename_i boundary st cp rest heq
  split_ifs at h with hc
  case neg =>
    simp only [Prod.mk.injEq] at h
    exact absurd h.1.symm (by simp)
  simp only [Prod.mk.injEq] at h
  obtain ⟨-, h2, h3⟩ := h
  have hcp' : s'.chunk_pos = cp := by rw [← h2]
  have hrlen : r.length = rest.length := by rw [← h3]
  have hbc : boundary = true ∨ s.max_chunk ≤ cp := by
    rcases Bool.or_eq_true_iff.mp hc with hb | hm
    · exact Or.inl hb
    · exact Or.inr (by simpa using of_decide_eq_true hm)
  by_cases hskip : s.chunk_pos < min (s.chunk_pos + d.length) s.min_chunk
  · rw [if_pos hskip, if_pos hskip] at heq
    have hcons := scan_consume heq
    rw [List.length_drop] at hcons
    have hle := scan_le heq
    have hlemax := scan_le_max heq
    have hdisj : min (s.chunk_pos + d.length) s.min_chunk < cp ∨ s.max_chunk ≤ cp := by
      rcases hbc with hbd | hmc
      · rw [hbd] at heq
        exact Or.inl (scan_true_progress heq)
      · exact Or.inr hmc
    exact ⟨by omega, by omega, by omega, by omega⟩
  · rw [if_neg hskip, if_neg hskip] at heq
    have hcons := scan_consume heq
    have hle := scan_le heq
    have hlemax := scan_le_max heq
    have hdisj : s.chunk_pos < cp ∨ s.max_chunk ≤ cp := by
      rcases hbc with hbd | hmc
      · rw [hbd] at heq
        exact Or.inl (scan_true_progress heq)
      · exact Or.inr hmc
    exact ⟨by omega, by omega, by omega, by omega⟩

theorem next_point_append_true {upd : Nat → Nat → Nat → Nat} {s s' : Splitter}
    {A r : List Nat} (B : List Nat) (hmm : s.min_chunk ≤ s.max_chunk)
    (h : next_point upd s A = (true, s', r)) :
    next_point upd s (A ++ B) = (true, s', r ++ B) := by
  have hge : s.min_chunk ≤ s.chunk_pos + A.length := by
    by_contra hlt
    rw [next_point_short hmm (by omega)] at h
    simp at h
  unfold next_point np_assemble at h ⊢
  simp only [List.length_append]
  rw [← Nat.add_assoc]
  have hmnA : min (s.chunk_pos + A.length) s.min_chunk = s.min_chunk := by omega
  have hmnAB : min (s.chunk_pos + A.length + B.length) s.min_chunk = s.min_chunk := by
    omega
  rw [hmnA] at h
  rw [hmnAB]
  by_cases hskip : s.chunk_pos < s.min_chunk
  · rw [if_pos hskip, if_pos hskip] at h
    rw [if_pos hskip, if_pos hskip,
        List.drop_append_of_le_length (by omega)]
    split at h
    rename_i boundary st cp rest heq
    split_ifs at h with hc
    case neg => simp at h
    simp only [Prod.mk.injEq] at h
    obtain ⟨-, h2, h3⟩ := h
    cases boundary with
    | true =>
      rw [scan_true_append heq (by omega)]
      simp [← h2, ← h3]
    | false =>
      have hcpmax : s.max_chunk ≤ cp := by simpa using hc
      have hlemax := scan_le_max heq
      have hcons := scan_consume heq
      rw [List.length_drop] at hcons
      have hmxA : min (s.chunk_pos + A.length) s.max_chunk = s.max_chunk := by omega
      have hmxAB : min (s.chunk_pos + A.length + B.length) s.max_chunk = s.max_chunk := by
        omega
      rw [hmxA] at heq
      rw [hmxAB, scan_stop_append heq (by omega)]
      simp [← h2, ← h3, hcpmax]
  · rw [if_neg hskip, if_neg hskip] at h
    rw [if_neg hskip, if_neg hskip]
    split at h
    rename_i boundary st cp rest heq
    split_ifs at h with hc
    case neg => simp at h
    simp only [Prod.mk.injEq] at h
    obtain ⟨-, h2, h3⟩ := h
    cases boundary with
    | true =>
      rw [scan_true_append heq (by omega)]
      simp [← h2, ← h3]
    | false =>
      have hcpmax : s.max_chunk ≤ cp := by simpa using hc
      have hlemax := scan_le_max heq
      have hcons := scan_consume heq
      have hmxA : min (s.chunk_pos + A.length) s.max_chunk = s.max_chunk := by omega
      have hmxAB : min (s.chunk_pos + A.length + B.length) s.max_chunk = s.max_chunk := by
        omega
      rw [hmxA] at heq
      rw [hmxAB, scan_stop_append heq (by omega)]
      simp [← h2, ← h3, hcpmax]

theorem np_assemble_irrel (s : Splitter) (w : List Nat) (wp c hh : Nat)
    (res : Bool × ScanSt × Nat × List Nat) :
    np_assemble { s with window := w, window_pos := wp, chunk_pos := c, hash := hh } res
      = np_assemble s res := by
  rcases res with ⟨bd, st, cp, rest⟩
  rfl

theorem next_point_nil (upd : Nat → Nat → Nat → Nat) (s : Splitter)
    (hinv : s.chunk_pos < s.max_chunk) :
    next_point upd s [] = (false, s, []) := by
  unfold next_point np_assemble
  simp only [List.length_nil, Nat.add_zero]
  rw [if_neg (by omega : ¬ s.chunk_pos < min s.chunk_pos s.min_chunk),
      if_neg (by omega : ¬ s.chunk_pos < min s.chunk_pos s.min_chunk)]
  simp only [scan]
  rw [if_neg (by simp only [Bool.false_or, decide_eq_true_eq, ge_iff_le]; omega)]

theorem next_point_append_false {upd : Nat → Nat → Nat → Nat} {s s₁ : Splitter}
    {A r : List Nat} (B : List Nat) (hmm : s.min_chunk ≤ s.max_chunk)
    (h : next_point upd s A = (false, s₁, r)) :
    next_point upd s (A ++ B) = next_point upd s₁ B := by
  obtain ⟨hs1cp, hs1lt, hrnil⟩ := next_point_false_state h
  have hf := next_point_fields h
  by_cases hB : B = []
  · subst hB
    rw [List.append_nil, h, next_point_nil upd s₁ (by rw [hf.2.1]; exact hs1lt), hrnil]
  have hBpos : 0 < B.length := List.length_pos.mpr hB
  by_cases hlt : s.chunk_pos + A.length < s.min_chunk
  · -- whole available data still below min_chunk: pure skip on both sides
    have hshort := @next_point_short upd s A hmm hlt
    rw [h] at hshort
    simp only [Prod.mk.injEq] at hshort
    obtain ⟨-, hs₁, -⟩ := hshort
    subst hs₁
    unfold next_point
    conv_rhs => rw [np_assemble_irrel]
    congr 1
    simp only [List.length_append]
    rw [← Nat.add_assoc]
    have hcondL : s.chunk_pos < min (s.chunk_pos + A.length + B.length) s.min_chunk := by
      omega
    have hcondR : s.chunk_pos + A.length
        < min (s.chunk_pos + A.length + B.length) s.min_chunk := by omega
    rw [if_pos hcondL, if_pos hcondL, if_pos hcondR, if_pos hcondR]
    rw [show min (s.chunk_pos + A.length + B.length) s.min_chunk - s.chunk_pos
          = A.length + (min (s.chunk_pos + A.length + B.length) s.min_chunk
              - (s.chunk_pos + A.length)) by omega,
        List.drop_append]
  · -- the A-run reached min_chunk and saved a mid-scan state; resume on B
    have hge : s.min_chunk ≤ s.chunk_pos + A.length := by omega
    unfold next_point np_assemble at h
    have hmnA : min (s.chunk_pos + A.length) s.min_chunk = s.min_chunk := by omega
    rw [hmnA] at h
    split at h
    rename_i boundary st cp rest heq
    split_ifs at h with hc
    case pos => simp at h
    have hbd : boundary = false := by
      cases boundary
      · rfl
      · exact absurd (by simp) hc
    subst hbd
    have hcplt : cp < s.max_chunk := by
      by_contra hcp'
      exact hc (by simp; omega)
    simp only [Prod.mk.injEq] at h
    obtain ⟨-, h2, -⟩ := h
    have hcp : cp = s.chunk_pos + A.length := by
      have hx := congrArg Splitter.chunk_pos h2
      dsimp only at hx
      omega
    rw [← h2]
    by_cases hskip : s.chunk_pos < s.min_chunk
    · rw [if_pos hskip, if_pos hskip] at heq
      have hcons := scan_consume heq
      rw [List.length_drop] at hcons
      have hrest : rest = [] := by
        have hz : rest.length = 0 := by omega
        exact List.eq_nil_of_length_eq_zero hz
      subst hrest
      unfold next_point
      conv_rhs => rw [np_assemble_irrel]
      congr 1
      simp only [List.length_append]
      rw [← Nat.add_assoc]
      have hmnAB : min (s.chunk_pos + A.length + B.length) s.min_chunk
          = s.min_chunk := by omega
      rw [hmnAB, if_pos hskip, if_pos hskip,
          List.drop_append_of_le_length (by omega)]
      have hcond : ¬ (cp < min (cp + B.length) s.min_chunk) := by omega
      rw [if_neg hcond, if_neg hcond,
          show min (cp + B.length) s.max_chunk
            = min (s.chunk_pos + A.length + B.length) s.max_chunk by rw [hcp],
          scan_false_nil_append heq (by omega)]
    · rw [if_neg hskip, if_neg hskip] at heq
      have hcons := scan_consume heq
      have hrest : rest = [] := by
        have hz : rest.length = 0 := by omega
        exact List.eq_nil_of_length_eq_zero hz
      subst hrest
      unfold next_point
      conv_rhs => rw [np_assemble_irrel]
      congr 1
      simp only [List.length_append]
      rw [← Nat.add_assoc]
      have hmnAB : min (s.chunk_pos + A.length + B.length) s.min_chunk
          = s.min_chunk := by omega
      rw [hmnAB, if_neg hskip, if_neg hskip]
      have hcond : ¬ (cp < min (cp + B.length) s.min_chunk) := by omega
      rw [if_neg hcond, if_neg hcond,
          show min (cp + B.length) s.max_chunk
            = min (s.chunk_pos + A.length + B.length) s.max_chunk by rw [hcp],
          scan_false_nil_append heq (by omega)]

/-! ## `push` loop lemmas -/

theorem push_go_succ_true {upd : Nat → Nat → Nat → Nat} {n : Nat} {s s' : Splitter}
    {d rest : List Nat} (h : next_point upd s d = (true, s', rest)) :
    push_go upd (n + 1) s d = push_go upd n (reset_chunk s') rest := by
  conv_lhs => rw [push_go]
  rw [h]

theorem push_go_succ_false {upd : Nat → Nat → Nat → Nat} {n : Nat} {s s' : Splitter}
    {d rest : List Nat} (h : next_point upd s d = (false, s', rest)) :
    push_go upd (n + 1) s d = s' := by
  conv_lhs => rw [push_go]
  rw [h]

theorem push_go_fields (upd : Nat → Nat → Nat → Nat) (fuel : Nat) :
    ∀ (s : Splitter) (d : List Nat),
    (push_go upd fuel s d).min_chunk = s.min_chunk ∧
    (push_go upd fuel s d).max_chunk = s.max_chunk ∧
    (push_go upd fuel s d).avg_chunk_bits = s.avg_chunk_bits ∧
    (push_go upd fuel s d).calc_md5 = s.calc_md5 ∧
    (push_go upd fuel s d).calc_sha256 = s.calc_sha256 ∧
    (push_go upd fuel s d).md5_ctx = s.md5_ctx ∧
    (push_go upd fuel s d).sha256_ctx = s.sha256_ctx := by
  induction fuel with
  | zero => exact fun s d => ⟨rfl, rfl, rfl, rfl, rfl, rfl, rfl⟩
  | succ n ih =>
    intro s d
    rcases hnp : next_point upd s d with ⟨bd, s', rest⟩
    obtain ⟨f1, f2, f3, f4, f5, -, f7, f8⟩ := next_point_fields hnp
    cases bd
    · rw [push_go_succ_false hnp]
      exact ⟨f1, f2, f3, f4, f5, f7, f8⟩
    · rw [push_go_succ_true hnp]
      obtain ⟨g1, g2, g3, g4, g5, g6, g7⟩ := ih (reset_chunk s') rest
      exact ⟨g1.trans f1, g2.trans f2, g3.trans f3, g4.trans f4, g5.trans f5,
             g6.trans f7, g7.trans f8⟩

theorem push_go_fuel {upd : Nat → Nat → Nat → Nat} (f1 : Nat) :
    ∀ (s : Splitter) (d : List Nat) (f2 : Nat),
    0 < s.min_chunk → s.min_chunk ≤ s.max_chunk → s.chunk_pos < s.max_chunk →
    d.length < f1 → d.length < f2 →
    push_go upd f1 s d = push_go upd f2 s d := by
  induction f1 with
  | zero =>
    intro s d f2 _ _ _ h1 _
    omega
  | succ n ih =>
    intro s d f2 hmin hmm hinv h1 h2
    cases f2 with
    | zero => omega
    | succ m =>
      rcases hnp : next_point upd s d with ⟨bd, s', rest⟩
      cases bd
      · rw [push_go_succ_false hnp, push_go_succ_false hnp]
      · obtain ⟨hb1, hb2, hb3, hb4⟩ := next_point_true_bounds hmm hinv hnp
        obtain ⟨f1', f2', -, -, -, -, -, -⟩ := next_point_fields hnp
        rw [push_go_succ_true hnp, push_go_succ_true hnp]
        refine ih _ rest m ?_ ?_ ?_ ?_ ?_
        · show 0 < s'.min_chunk
          omega
        · show s'.min_chunk ≤ s'.max_chunk
          omega
        · show (0 : Nat) < s'.max_chunk
          omega
        · omega
        · omega

theorem push_go_comp {upd : Nat → Nat → Nat → Nat} (n : Nat) :
    ∀ (A : List Nat), A.length ≤ n → ∀ (s : Splitter) (B : List Nat),
    0 < s.min_chunk → s.min_chunk ≤ s.max_chunk → s.chunk_pos < s.max_chunk →
    push_go upd (A.length + B.length + 1) s (A ++ B)
      = push_go upd (B.length + 1) (push_go upd (A.length + 1) s A) B := by
  induction n with
  | zero =>
    intro A hA s B hmin hmm hinv
    have hnil : A = [] := List.eq_nil_of_length_eq_zero (by omega)
    subst hnil
    rw [List.nil_append, push_go_succ_false (next_point_nil upd s hinv)]
    simp only [List.length_nil, Nat.zero_add]
  | succ n ih =>
    intro A hA s B hmin hmm hinv
    rcases hnp : next_point upd s A with ⟨bd, s', rest⟩
    cases bd
    case false =>
      have hNB := next_point_append_false B hmm hnp
      obtain ⟨hcpA, hcplt, hrnil⟩ := next_point_false_state hnp
      obtain ⟨f1, f2, f3, f4, f5, f6, f7, f8⟩ := next_point_fields hnp
      rcases hnp2 : next_point upd s' B with ⟨bd2, s₂, rest₂⟩
      have hNB2 : next_point upd s (A ++ B) = (bd2, s₂, rest₂) := by rw [hNB, hnp2]
      cases bd2
      case false =>
        rw [push_go_succ_false hNB2, push_go_succ_false hnp, push_go_succ_false hnp2]
      case true =>
        have hmm' : s'.min_chunk ≤ s'.max_chunk := by omega
        have hinv' : s'.chunk_pos < s'.max_chunk := by omega
        obtain ⟨hb1, hb2, hb3, hb4⟩ := next_point_true_bounds hmm' hinv' hnp2
        obtain ⟨g1, g2, g3, g4, g5, g6, g7, g8⟩ := next_point_fields hnp2
        rw [push_go_succ_true hNB2, push_go_succ_false hnp, push_go_succ_true hnp2]
        refine push_go_fuel _ _ rest₂ _ ?_ ?_ ?_ ?_ ?_
        · show 0 < s₂.min_chunk
          omega
        · show s₂.min_chunk ≤ s₂.max_chunk
          omega
        · show (0 : Nat) < s₂.max_chunk
          omega
        · omega
        · omega
    case true =>
      have hNA := next_point_append_true B hmm hnp
      obtain ⟨hb1, hb2, hb3, hb4⟩ := next_point_true_bounds hmm hinv hnp
      obtain ⟨f1, f2, f3, f4, f5, f6, f7, f8⟩ := next_point_fields hnp
      rw [push_go_succ_true hNA, push_go_succ_true hnp]
      have hX1 : 0 < (reset_chunk s').min_chunk := by
        show 0 < s'.min_chunk
        omega
      have hX2 : (reset_chunk s').min_chunk ≤ (reset_chunk s').max_chunk := by
        show s'.min_chunk ≤ s'.max_chunk
        omega
      have hX3 : (reset_chunk s').chunk_pos < (reset_chunk s').max_chunk := by
        show (0 : Nat) < s'.max_chunk
        omega
      rw [push_go_fuel (A.length + B.length) _ (rest ++ B) (rest.length + B.length + 1)
          hX1 hX2 hX3 (by rw [List.length_append]; omega) (by rw [List.length_append]; omega)]
      rw [ih rest (by omega) _ B hX1 hX2 hX3]
      rw [push_go_fuel A.length _ rest (rest.length + 1) hX1 hX2 hX3 (by omega) (by omega)]

theorem next_point_ctx {upd : Nat → Nat → Nat → Nat} {s s' : Splitter}
    {d r : List Nat} {bd : Bool} (m5 sh : List Nat)
    (h : next_point upd s d = (bd, s', r)) :
    next_point upd { s with md5_ctx := m5, sha256_ctx := sh } d
      = (bd, { s' with md5_ctx := m5, sha256_ctx := sh }, r) := by
  unfold next_point np_assemble at h ⊢
  dsimp only
  split at h
  rename_i boundary st cp rest heq
  rw [heq]
  dsimp only
  split_ifs at h ⊢ with hc
  · simp only [Prod.mk.injEq] at h
    obtain ⟨h1, h2, h3⟩ := h
    subst h1
    subst h3
    rw [← h2]
  · simp only [Prod.mk.injEq] at h
    obtain ⟨h1, h2, h3⟩ := h
    subst h1
    subst h3
    rw [← h2]

theorem push_go_ctx (upd : Nat → Nat → Nat → Nat) (fuel : Nat) :
    ∀ (s : Splitter) (m5 sh : List Nat) (d : List Nat),
    push_go upd fuel { s with md5_ctx := m5, sha256_ctx := sh } d
      = { push_go upd fuel s d with md5_ctx := m5, sha256_ctx := sh } := by
  induction fuel with
  | zero => intros; rfl
  | succ n ih =>
    intro s m5 sh d
    rcases hnp : next_point upd s d with ⟨bd, s', rest⟩
    have hctx := next_point_ctx m5 sh hnp
    cases bd
    · rw [push_go_succ_false hctx, push_go_succ_false hnp]
    · rw [push_go_succ_true hctx, push_go_succ_true hnp]
      rw [show reset_chunk { s' with md5_ctx := m5, sha256_ctx := sh }
            = { reset_chunk s' with md5_ctx := m5, sha256_ctx := sh } from rfl]
      exact ih (reset_chunk s') m5 sh rest

theorem push_append {upd : Nat → Nat → Nat → Nat} {s : Splitter} (A B : List Nat)
    (hmin : 0 < s.min_chunk) (hmm : s.min_chunk ≤ s.max_chunk)
    (hinv : s.chunk_pos < s.max_chunk) :
    push upd (push upd s A) B = push upd s (A ++ B) := by
  obtain ⟨q1, q2, q3, q4, q5, q6, q7⟩ := push_go_fields upd (A.length + 1) s A
  have hQ := @push_go_comp upd A.length A (le_refl _) s B hmin hmm hinv
  unfold push
  simp only [push_go_ctx]
  rw [q4, q5, List.length_append, hQ]
  by_cases h5 : s.calc_md5 <;> by_cases h6 : s.calc_sha256 <;>
    simp [h5, h6, List.append_assoc]

theorem push_go_inv {upd : Nat → Nat → Nat → Nat} (fuel : Nat) :
    ∀ (s : Splitter) (d : List Nat),
    0 < s.min_chunk → s.min_chunk ≤ s.max_chunk → s.chunk_pos < s.max_chunk →
    (push_go upd fuel s d).chunk_pos < (push_go upd fuel s d).max_chunk := by
  induction fuel with
  | zero => intro s d _ _ hinv; exact hinv
  | succ n ih =>
    intro s d hmin hmm hinv
    rcases hnp : next_point upd s d with ⟨bd, s', rest⟩
    obtain ⟨f1, f2, -, -, -, -, -, -⟩ := next_point_fields hnp
    cases bd
    · rw [push_go_succ_false hnp]
      obtain ⟨-, h2, -⟩ := next_point_false_state hnp
      omega
    · rw [push_go_succ_true hnp]
      refine ih _ rest ?_ ?_ ?_
      · show 0 < s'.min_chunk
        omega
      · show s'.min_chunk ≤ s'.max_chunk
        omega
      · show (0 : Nat) < s'.max_chunk
        omega

theorem push_fields {upd : Nat → Nat → Nat → Nat} (s : Splitter) (d : List Nat) :
    (push upd s d).min_chunk = s.min_chunk ∧
    (push upd s d).max_chunk = s.max_chunk ∧
    (push upd s d).avg_chunk_bits = s.avg_chunk_bits ∧
    (push upd s d).calc_md5 = s.calc_md5 ∧
    (push upd s d).calc_sha256 = s.calc_sha256 ∧
    (push upd s d).md5_ctx = (if s.calc_md5 then s.md5_ctx ++ d else s.md5_ctx) ∧
    (push upd s d).sha256_ctx = (if s.calc_sha256 then s.sha256_ctx ++ d else s.sha256_ctx) := by
  unfold push
  simp only [push_go_ctx]
  obtain ⟨p1, p2, p3, p4, p5, -, -⟩ := push_go_fields upd (d.length + 1) s d
  exact ⟨p1, p2, p3, p4, p5, trivial, trivial⟩

theorem push_inv {upd : Nat → Nat → Nat → Nat} (s : Splitter) (d : List Nat)
    (hmin : 0 < s.min_chunk) (hmm : s.min_chunk ≤ s.max_chunk)
    (hinv : s.chunk_pos < s.max_chunk) :
    (push upd s d).chunk_pos < (push upd s d).max_chunk := by
  unfold push
  simp only [push_go_ctx]
  exact push_go_inv (d.length + 1) s d hmin hmm hinv

theorem push_nil {upd : Nat → Nat → Nat → Nat} {s : Splitter}
    (hinv : s.chunk_pos < s.max_chunk) :
    push upd s [] = s := by
  unfold push
  simp only [push_go_ctx, List.append_nil, ite_self, List.length_nil]
  rw [push_go_succ_false (next_point_nil upd s hinv)]

theorem foldl_push_flatten {upd : Nat → Nat → Nat → Nat} :
    ∀ (segs : List (List Nat)) (s : Splitter),
    0 < s.min_chunk → s.min_chunk ≤ s.max_chunk → s.chunk_pos < s.max_chunk →
    segs.foldl (push upd) s = push upd s segs.flatten := by
  intro segs
  induction segs with
  | nil =>
    intro s _ _ hinv
    exact (push_nil hinv).symm
  | cons seg rest ih =>
    intro s hmin hmm hinv
    obtain ⟨p1, p2, -, -, -, -, -⟩ := @push_fields upd s seg
    have hinv' := @push_inv upd s seg hmin hmm hinv
    rw [List.foldl_cons, List.flatten_cons,
        ih (push upd s seg) (by omega) (by omega) hinv',
        push_append seg rest.flatten hmin hmm hinv]

theorem foldl_push_ctx_acc {upd : Nat → Nat → Nat → Nat} :
    ∀ (segs : List (List Nat)) (s : Splitter),
    (segs.foldl (push upd) s).calc_md5 = s.calc_md5 ∧
    (segs.foldl (push upd) s).calc_sha256 = s.calc_sha256 ∧
    (segs.foldl (push upd) s).md5_ctx
      = (if s.calc_md5 then s.md5_ctx ++ segs.flatten else s.md5_ctx) ∧
    (segs.foldl (push upd) s).sha256_ctx
      = (if s.calc_sha256 then s.sha256_ctx ++ segs.flatten else s.sha256_ctx) := by
  intro segs
  induction segs with
  | nil => intro s; simp
  | cons seg rest ih =>
    intro s
    obtain ⟨-, -, -, p4, p5, p6, p7⟩ := @push_fields upd s seg
    obtain ⟨i1, i2, i3, i4⟩ := ih (push upd s seg)
    refine ⟨?_, ?_, ?_, ?_⟩
    · rw [List.foldl_cons, i1, p4]
    · rw [List.foldl_cons, i2, p5]
    · rw [List.foldl_cons, i3, p4, p6, List.flatten_cons]
      by_cases h5 : s.calc_md5 <;> simp [h5, List.append_assoc]
    · rw [List.foldl_cons, i4, p5, p7, List.flatten_cons]
      by_cases h6 : s.calc_sha256 <;> simp [h6, List.append_assoc]

/-- C3: splitting is invariant under push fragmentation: for well-formed
parameters (0 < min_chunk ≤ max_chunk), feeding a stream to the splitter as any
sequence of consecutive segments via repeated push calls yields exactly the same
splitter state — same split points and same residual chunk state — as pushing
the whole concatenated stream in a single call, despite the below-min_chunk skip
optimization being applied per push call. -/
theorem c3_push_fragmentation_invariant (upd : Nat → Nat → Nat → Nat)
    (minc maxc bits : Nat) (m5 sh : Bool) (segs : List (List Nat))
    (hmin : 0 < minc) (hmm : minc ≤ maxc) :
    segs.foldl (push upd) (mkSplitter minc maxc bits m5 sh)
      = push upd (mkSplitter minc maxc bits m5 sh) segs.flatten := by
  refine foldl_push_flatten segs _ ?_ ?_ ?_
  · exact hmin
  · exact hmm
  · show (0 : Nat) < maxc
    omega

theorem c3_push_fragmentation_invariant_witness :
    [[65, 66, 67], [68, 69, 70, 71, 72, 73]].foldl (push rabin_update)
        (mkSplitter 3 8 2 false false)
      = push rabin_update (mkSplitter 3 8 2 false false)
          [[65, 66, 67], [68, 69, 70, 71, 72, 73]].flatten :=
  c3_push_fragmentation_invariant rabin_update 3 8 2 false false [[65, 66, 67], [68, 69, 70, 71, 72, 73]]
    (by decide) (by decide)

/-- C4: for every combination of the calc_md5 and calc_sha256 flags, whenever a
digest is enabled the value finalized by finish equals the digest (computed by
the given digest function) of the concatenation of all bytes ever pushed,
independent of how the input was fragmented into push calls and of where chunk
boundaries fall, and no digest is produced for a disabled flag; finish emits no
trailing boundary and returns the splitter state untouched. -/
theorem c4_finish_digests (upd : Nat → Nat → Nat → Nat) (md5fn sha256fn : List Nat → List Nat)
    (minc maxc bits : Nat) (m5 sh : Bool) (segs : List (List Nat)) :
    finish md5fn sha256fn true true
        (segs.foldl (push upd) (mkSplitter minc maxc bits m5 sh))
      = ((if m5 then some (md5fn segs.flatten) else none),
         (if sh then some (sha256fn segs.flatten) else none),
         segs.foldl (push upd) (mkSplitter minc maxc bits m5 sh)) := by
  obtain ⟨i1, i2, i3, i4⟩ :=
    @foldl_push_ctx_acc upd segs (mkSplitter minc maxc bits m5 sh)
  simp only [finish]
  rw [i1, i2, i3, i4]
  by_cases h5 : m5 <;> by_cases h6 : sh <;> simp [mkSplitter, h5, h6]

theorem push_go_points {upd : Nat → Nat → Nat → Nat} (fuel : Nat) :
    ∀ (s : Splitter) (d : List Nat),
    0 < s.min_chunk → s.min_chunk ≤ s.max_chunk → s.chunk_pos < s.max_chunk →
    d.length < fuel →
    (∀ p ∈ (push_go upd fuel s d).split_points,
        p ∈ s.split_points ∨ (s.min_chunk ≤ p ∧ p ≤ s.max_chunk)) ∧
    (push_go upd fuel s d).split_points.sum + (push_go upd fuel s d).chunk_pos
      = s.split_points.sum + s.chunk_pos + d.length := by
  induction fuel with
  | zero => intro s d _ _ _ h; omega
  | succ n ih =>
    intro s d hmin hmm hinv hlen
    rcases hnp : next_point upd s d with ⟨bd, s', rest⟩
    obtain ⟨f1, f2, f3, f4, f5, f6, f7, f8⟩ := next_point_fields hnp
    cases bd
    · rw [push_go_succ_false hnp]
      obtain ⟨h1, h2, h3⟩ := next_point_false_state hnp
      constructor
      · intro p hp
        left
        rw [← f6]
        exact hp
      · have e1 : s'.split_points.sum = s.split_points.sum := by rw [f6]
        omega
    · rw [push_go_succ_true hnp]
      obtain ⟨hb1, hb2, hb3, hb4⟩ := next_point_true_bounds hmm hinv hnp
      have hrest : rest.length < n := by omega
      have hX1 : 0 < (reset_chunk s').min_chunk := by
        show 0 < s'.min_chunk
        omega
      have hX2 : (reset_chunk s').min_chunk ≤ (reset_chunk s').max_chunk := by
        show s'.min_chunk ≤ s'.max_chunk
        omega
      have hX3 : (reset_chunk s').chunk_pos < (reset_chunk s').max_chunk := by
        show (0 : Nat) < s'.max_chunk
        omega
      obtain ⟨ihm, ihs⟩ := ih (reset_chunk s') rest hX1 hX2 hX3 hrest
      constructor
      · intro p hp
        rcases ihm p hp with hin | hbd
        · have hin' : p ∈ s'.split_points ++ [s'.chunk_pos] := hin
          rcases List.mem_append.mp hin' with hmem | hmem
          · left
            rw [← f6]
            exact hmem
          · right
            have hpc : p = s'.chunk_pos := by simpa using hmem
            subst hpc
            exact ⟨hb1, hb2⟩
        · right
          have hc1 : s'.min_chunk ≤ p := hbd.1
          have hc2 : p ≤ s'.max_chunk := hbd.2
          omega
      · have hsum : (reset_chunk s').split_points.sum
            = s'.split_points.sum + s'.chunk_pos := by
          show (s'.split_points ++ [s'.chunk_pos]).sum = _
          simp
        have hcp0 : (reset_chunk s').chunk_pos = 0 := rfl
        have e1 : s'.split_points.sum = s.split_points.sum := by rw [f6]
        rw [hsum, hcp0] at ihs
        omega

theorem push_points {upd : Nat → Nat → Nat → Nat} (s : Splitter) (d : List Nat)
    (hmin : 0 < s.min_chunk) (hmm : s.min_chunk ≤ s.max_chunk)
    (hinv : s.chunk_pos < s.max_chunk) :
    (∀ p ∈ (push upd s d).split_points,
        p ∈ s.split_points ∨ (s.min_chunk ≤ p ∧ p ≤ s.max_chunk)) ∧
    (push upd s d).split_points.sum + (push upd s d).chunk_pos
      = s.split_points.sum + s.chunk_pos + d.length := by
  unfold push
  simp only [push_go_ctx]
  exact push_go_points (d.length + 1) s d hmin hmm hinv (by omega)

theorem push_short {upd : Nat → Nat → Nat → Nat} {minc maxc bits : Nat}
    {m5 sh : Bool} {d : List Nat} (hmm : minc ≤ maxc) (h : d.length < minc) :
    (push upd (mkSplitter minc maxc bits m5 sh) d).split_points = [] ∧
    (push upd (mkSplitter minc maxc bits m5 sh) d).chunk_pos = d.length := by
  unfold push
  simp only [push_go_ctx]
  have hs := @next_point_short upd (mkSplitter minc maxc bits m5 sh) d
    (by exact hmm) (by show 0 + d.length < minc; omega)
  rw [push_go_succ_false hs]
  constructor
  · rfl
  · show 0 + d.length = d.length
    omega

/-- C2 (amended): for well-formed parameters (0 < min_chunk ≤ max_chunk), every
split point recorded by pushing a stream into a fresh splitter lies between
min_chunk and max_chunk, the split points together with the residual chunk
account for every input byte, the residual chunk is strictly shorter than
max_chunk, and an input shorter than min_chunk yields no split point and a
residual chunk of the whole input's length. The original claim's stronger
assertion — that the residual chunk can be shorter than min_chunk only if the
whole input is shorter than min_chunk — is false; see the counterexample. -/
theorem c2_chunk_size_bounds (upd : Nat → Nat → Nat → Nat) (minc maxc bits : Nat) (m5 sh : Bool)
    (d : List Nat) (hmin : 0 < minc) (hmm : minc ≤ maxc) :
    (∀ p ∈ (push upd (mkSplitter minc maxc bits m5 sh) d).split_points,
        minc ≤ p ∧ p ≤ maxc) ∧
    (push upd (mkSplitter minc maxc bits m5 sh) d).split_points.sum
        + (push upd (mkSplitter minc maxc bits m5 sh) d).chunk_pos = d.length ∧
    (push upd (mkSplitter minc maxc bits m5 sh) d).chunk_pos < maxc ∧
    (d.length < minc →
      (push upd (mkSplitter minc maxc bits m5 sh) d).split_points = [] ∧
      (push upd (mkSplitter minc maxc bits m5 sh) d).chunk_pos = d.length) := by
  have hX1 : 0 < (mkSplitter minc maxc bits m5 sh).min_chunk := hmin
  have hX2 : (mkSplitter minc maxc bits m5 sh).min_chunk
      ≤ (mkSplitter minc maxc bits m5 sh).max_chunk := hmm
  have hX3 : (mkSplitter minc maxc bits m5 sh).chunk_pos
      < (mkSplitter minc maxc bits m5 sh).max_chunk := by
    show (0 : Nat) < maxc
    omega
  obtain ⟨hmem, hsum⟩ := @push_points upd (mkSplitter minc maxc bits m5 sh) d
    hX1 hX2 hX3
  refine ⟨?_, ?_, ?_, fun h => push_short hmm h⟩
  · intro p hp
    rcases hmem p hp with hin | hbd
    · exact absurd hin (List.not_mem_nil p)
    · exact hbd
  · have e0 : (mkSplitter minc maxc bits m5 sh).split_points.sum = 0 := rfl
    have e1 : (mkSplitter minc maxc bits m5 sh).chunk_pos = 0 := rfl
    omega
  · have hcp := @push_inv upd (mkSplitter minc maxc bits m5 sh) d hX1 hX2 hX3
    obtain ⟨-, p2, -⟩ := @push_fields upd (mkSplitter minc maxc bits m5 sh) d
    have e2 : (mkSplitter minc maxc bits m5 sh).max_chunk = maxc := rfl
    omega

theorem c2_chunk_size_bounds_witness :
    0 < 3 ∧ 3 ≤ 100 ∧
    ((∀ p ∈ (push rabin_update (mkSplitter 3 100 0 false false)
          [65, 65, 65, 65, 65]).split_points, 3 ≤ p ∧ p ≤ 100) ∧
     (push rabin_update (mkSplitter 3 100 0 false false)
          [65, 65, 65, 65, 65]).split_points.sum
        + (push rabin_update (mkSplitter 3 100 0 false false)
          [65, 65, 65, 65, 65]).chunk_pos = ([65, 65, 65, 65, 65] : List Nat).length ∧
     (push rabin_update (mkSplitter 3 100 0 false false)
          [65, 65, 65, 65, 65]).chunk_pos < 100 ∧
     (([65, 65, 65, 65, 65] : List Nat).length < 3 →
       (push rabin_update (mkSplitter 3 100 0 false false)
          [65, 65, 65, 65, 65]).split_points = [] ∧
       (push rabin_update (mkSplitter 3 100 0 false false)
          [65, 65, 65, 65, 65]).chunk_pos = ([65, 65, 65, 65, 65] : List Nat).length)) :=
  ⟨by decide, by decide,
   c2_chunk_size_bounds rabin_update 3 100 0 false false [65, 65, 65, 65, 65] (by decide) (by decide)⟩

set_option maxRecDepth 10000 in
/-- C2 counterexample: pushing the 5-byte input [65, 65, 65, 65, 65] with
min_chunk = 3, max_chunk = 100, avg_chunk_bits = 0 declares a boundary after
4 bytes and leaves a residual chunk of 1 byte, shorter than min_chunk even
though the whole input (5 bytes) is not shorter than min_chunk, refuting the
claim that a short residual implies a short input. -/
theorem c2_residual_counterexample :
    ¬ ((push rabin_update (mkSplitter 3 100 0 false false)
          [65, 65, 65, 65, 65]).chunk_pos < 3 →
        ([65, 65, 65, 65, 65] : List Nat).length < 3) := by
  decide


theorem firstMatch_congr (cond cond' : Nat → Bool) :
    ∀ (n lo : Nat), (∀ p, lo ≤ p → p < lo + n → cond p = cond' p) →
    firstMatch cond lo n = firstMatch cond' lo n := by
  intro n
  induction n with
  | zero => intro lo _; rfl
  | succ m ih =>
    intro lo h
    simp only [firstMatch]
    rw [h lo (le_refl _) (by omega)]
    by_cases hc : cond' lo
    · rw [if_pos hc, if_pos hc]
    · rw [if_neg hc, if_neg hc]
      exact ih (lo + 1) (fun p h1 h2 => h p (by omega) (by omega))

theorem firstMatch_or_last (cond : Nat → Bool) (M : Nat) :
    ∀ (n lo : Nat), 0 < n → lo + n = M + 1 →
    firstMatch (fun p => cond p || decide (p = M)) lo n
      = (firstMatch cond lo n).or (some M) := by
  intro n
  induction n with
  | zero => intro lo h; omega
  | succ m ih =>
    intro lo _ hM
    simp only [firstMatch]
    by_cases hc : cond lo
    · simp [hc, Option.or]
    · have hc' : cond lo = false := by simpa using hc
      simp only [hc', Bool.false_or, Bool.false_eq_true, if_false]
      by_cases hm : m = 0
      · subst hm
        have : lo = M := by omega
        subst this
        simp [firstMatch, Option.or]
      · have hlo : ¬ (lo = M) := by omega
        rw [if_neg (by simpa using hlo)]
        exact ih (lo + 1) (by omega) (by omega)

theorem scan_fm {upd : Nat → Nat → Nat → Nat} {mask mx : Nat} :
    ∀ (l : List Nat) (st : ScanSt) (cp : Nat), cp ≤ mx →
    ((scan upd mask mx st cp l).1 = true →
      firstMatch
          (fun p => decide ((roll upd st (l.take (p - cp))).hash &&& mask = mask))
          (cp + 1) (min (cp + l.length) mx - cp)
        = some (scan upd mask mx st cp l).2.2.1) ∧
    ((scan upd mask mx st cp l).1 = false →
      firstMatch
          (fun p => decide ((roll upd st (l.take (p - cp))).hash &&& mask = mask))
          (cp + 1) (min (cp + l.length) mx - cp) = none ∧
      (scan upd mask mx st cp l).2.2.1 = min (cp + l.length) mx) := by
  intro l
  induction l with
  | nil =>
    intro st cp hcp
    constructor
    · intro h
      exact absurd h (by simp [scan])
    · intro _
      constructor
      · rw [show min (cp + [].length) mx - cp = 0 by
            simp only [List.length_nil, Nat.add_zero]; omega]
        rfl
      · show cp = min (cp + [].length) mx
        simp only [List.length_nil, Nat.add_zero]
        omega
  | cons b rest ih =>
    intro st cp hcp
    by_cases hlt : cp < mx
    · by_cases hb : (scan_step upd st b).hash &&& mask = mask
      · have hs : scan upd mask mx st cp (b :: rest)
            = (true, scan_step upd st b, cp + 1, rest) := by
          simp only [scan]
          rw [if_pos hlt, if_pos hb]
        rw [hs]
        obtain ⟨n, hn⟩ : ∃ n, min (cp + (b :: rest).length) mx - cp = n + 1 :=
          ⟨min (cp + (b :: rest).length) mx - cp - 1, by
            simp only [List.length_cons]; omega⟩
        rw [hn]
        constructor
        · intro _
          simp only [firstMatch]
          rw [if_pos ?hcond]
          case hcond =>
            rw [show cp + 1 - cp = 1 by omega]
            rw [show (b :: rest).take 1 = [b] from rfl]
            rw [show roll upd st [b] = scan_step upd st b from rfl]
            simpa using hb
        · intro h
          exact absurd h (by simp)
      · have hs : scan upd mask mx st cp (b :: rest)
            = scan upd mask mx (scan_step upd st b) (cp + 1) rest := by
          simp only [scan]
          rw [if_pos hlt, if_neg hb]
        rw [hs]
        obtain ⟨ih1, ih2⟩ := ih (scan_step upd st b) (cp + 1) (by omega)
        have hcnt : min (cp + (b :: rest).length) mx - cp
            = (min (cp + 1 + rest.length) mx - (cp + 1)) + 1 := by
          simp only [List.length_cons]
          omega
        have hcongr : firstMatch
              (fun p => decide ((roll upd (scan_step upd st b)
                  (rest.take (p - (cp + 1)))).hash &&& mask = mask))
              (cp + 1 + 1) (min (cp + 1 + rest.length) mx - (cp + 1))
            = firstMatch
              (fun p => decide ((roll upd st
                  ((b :: rest).take (p - cp))).hash &&& mask = mask))
              (cp + 1 + 1) (min (cp + 1 + rest.length) mx - (cp + 1)) := by
          refine firstMatch_congr _ _ _ _ ?_
          intro p h1 h2
          have htk : (b :: rest).take (p - cp) = b :: rest.take (p - (cp + 1)) := by
            rw [show p - cp = (p - (cp + 1)) + 1 by omega, List.take_succ_cons]
          have hroll : roll upd st ((b :: rest).take (p - cp))
              = roll upd (scan_step upd st b) (rest.take (p - (cp + 1))) := by
            rw [htk]
            rfl
          rw [hroll]
        have hfm : firstMatch
              (fun p => decide ((roll upd st
                  ((b :: rest).take (p - cp))).hash &&& mask = mask))
              (cp + 1) (min (cp + (b :: rest).length) mx - cp)
            = firstMatch
              (fun p => decide ((roll upd (scan_step upd st b)
                  (rest.take (p - (cp + 1)))).hash &&& mask = mask))
              (cp + 1 + 1) (min (cp + 1 + rest.length) mx - (cp + 1)) := by
          rw [hcnt]
          simp only [firstMatch]
          rw [if_neg ?hneg]
          case hneg =>
            rw [show cp + 1 - cp = 1 by omega]
            rw [show (b :: rest).take 1 = [b] from rfl]
            rw [show roll upd st [b] = scan_step upd st b from rfl]
            simpa using hb
          rw [hcongr]
        constructor
        · intro h
          rw [hfm]
          exact ih1 h
        · intro h
          obtain ⟨hfm2, hpos⟩ := ih2 h
          refine ⟨by rw [hfm]; exact hfm2, ?_⟩
          rw [hpos]
          simp only [List.length_cons]
          omega
    · have hcpmx : cp = mx := by omega
      have hs : scan upd mask mx st cp (b :: rest)
          = (false, st, cp, b :: rest) := by
        simp only [scan]
        rw [if_neg hlt]
      rw [hs]
      constructor
      · intro h
        exact absurd h (by simp)
      · intro _
        constructor
        · rw [show min (cp + (b :: rest).length) mx - cp = 0 by
              simp only [List.length_cons]; omega]
          rfl
        · show cp = min (cp + (b :: rest).length) mx
          simp only [List.length_cons]
          omega

/-- C1 (amended): for well-formed parameters (0 < min_chunk ≤ max_chunk), the
boundary `_next_point` declares for a fresh chunk is the first position `p`
with `min_chunk ≤ p ≤ min(|d|, max_chunk)` such that either `p > min_chunk`
and the rolling hash over the bytes shifted in at positions
`min_chunk … p-1` satisfies `(hash &&& mask) = mask`, or `p = max_chunk`;
`none` when no such position is reachable. The original claim admits a hash
boundary already at `p = min_chunk` (where no byte has been hashed yet),
which the code never declares; see the counterexample. -/
theorem c1_boundary_rule (upd : Nat → Nat → Nat → Nat) (minc maxc bits : Nat) (d : List Nat)
    (hmin : 0 < minc) (hmm : minc ≤ maxc) :
    split_point upd minc maxc bits d = c1_amended_boundary upd minc maxc bits d := by
  by_cases hL : d.length < minc
  · have hnp := @next_point_short upd (mkSplitter minc maxc bits false false) d
      (by exact hmm) (by show 0 + d.length < minc; omega)
    unfold split_point
    rw [hnp]
    unfold c1_amended_boundary
    rw [show min d.length maxc + 1 - minc = 0 by omega]
    rfl
  · push_neg at hL
    have hnpe : next_point upd (mkSplitter minc maxc bits false false) d
        = np_assemble (mkSplitter minc maxc bits false false)
            (scan upd (2 ^ bits - 1) (min d.length maxc)
              ⟨List.replicate window_len 0, 0, 0⟩ minc (d.drop minc)) := by
      unfold next_point
      dsimp only [mkSplitter]
      simp only [Nat.zero_add, Nat.sub_zero]
      rw [Nat.min_eq_right hL, if_pos hmin, if_pos hmin]
    obtain ⟨sf1, sf2⟩ := @scan_fm upd (2 ^ bits - 1)
      (min d.length maxc) (d.drop minc)
      ⟨List.replicate window_len 0, 0, 0⟩ minc (by omega)
    have hlen : (d.drop minc).length = d.length - minc := List.length_drop minc d
    have hcnt : min (minc + (d.drop minc).length) (min d.length maxc)
        = min d.length maxc := by
      rw [hlen]
      omega
    rw [hcnt] at sf1 sf2
    have hfun : (fun p => decide ((roll upd ⟨List.replicate window_len 0, 0, 0⟩
          ((d.drop minc).take (p - minc))).hash &&& (2 ^ bits - 1)
            = 2 ^ bits - 1))
        = (fun p => hash_cond upd minc bits d p) := rfl
    rw [hfun] at sf1 sf2
    rcases hscan : scan upd (2 ^ bits - 1) (min d.length maxc)
        ⟨List.replicate window_len 0, 0, 0⟩ minc (d.drop minc)
      with ⟨bd, st, cpf, rest⟩
    rw [hscan] at sf1 sf2
    simp only at sf1 sf2
    unfold split_point
    rw [hnpe, hscan]
    unfold np_assemble
    have hmk : (mkSplitter minc maxc bits false false).max_chunk = maxc := rfl
    by_cases hEq : minc = maxc
    · subst hEq
      have hM : min d.length minc = minc := by omega
      rw [hM] at sf1 sf2
      cases bd
      · obtain ⟨-, hcpf⟩ := sf2 rfl
        simp only [Bool.false_or]
        rw [if_pos (by simp only [decide_eq_true_eq, ge_iff_le]; omega)]
        unfold c1_amended_boundary
        rw [hM, show minc + 1 - minc = 1 by omega]
        simp only [firstMatch]
        rw [if_pos (by simp)]
        show some cpf = some minc
        rw [hcpf]
      · have h0 := sf1 rfl
        rw [show minc - minc = 0 by omega] at h0
        exact absurd h0 (by simp [firstMatch])
    · have hlt : minc < maxc := by omega
      have hAm : c1_amended_boundary upd minc maxc bits d
          = firstMatch
              (fun p => (decide (minc < p) && hash_cond upd minc bits d p)
                || decide (p = maxc))
              (minc + 1) (min d.length maxc - minc) := by
        unfold c1_amended_boundary
        rw [show min d.length maxc + 1 - minc = (min d.length maxc - minc) + 1 by omega]
        simp only [firstMatch]
        rw [if_neg (by
          rw [decide_eq_false (Nat.lt_irrefl minc), Bool.false_and, Bool.false_or,
              decide_eq_false hEq]
          simp)]
      rw [hAm]
      by_cases hMx : maxc ≤ d.length
      · have hM : min d.length maxc = maxc := by omega
        rw [hM] at sf1 sf2 ⊢
        have hcongr : firstMatch
              (fun p => (decide (minc < p) && hash_cond upd minc bits d p)
                || decide (p = maxc))
              (minc + 1) (maxc - minc)
            = firstMatch
              (fun p => hash_cond upd minc bits d p || decide (p = maxc))
              (minc + 1) (maxc - minc) := by
          refine firstMatch_congr _ _ _ _ ?_
          intro p h1 h2
          rw [decide_eq_true (show minc < p by omega), Bool.true_and]
        have hor := firstMatch_or_last
          (fun p => hash_cond upd minc bits d p) maxc (maxc - minc) (minc + 1)
          (by omega) (by omega)
        rw [hcongr, hor]
        cases bd
        · obtain ⟨hfm, hcpf⟩ := sf2 rfl
          simp only [Bool.false_or]
          rw [if_pos (by simp only [decide_eq_true_eq, ge_iff_le]; omega)]
          show some cpf = (firstMatch
              (fun p => hash_cond upd minc bits d p) (minc + 1) (maxc - minc)).or
              (some maxc)
          rw [hfm, hcpf]
          rfl
        · have hfm := sf1 rfl
          simp only [Bool.true_or]
          show some cpf = (firstMatch
              (fun p => hash_cond upd minc bits d p) (minc + 1) (maxc - minc)).or
              (some maxc)
          rw [hfm]
          rfl
      · have hM : min d.length maxc = d.length := by omega
        rw [hM] at sf1 sf2 ⊢
        have hcongr : firstMatch
              (fun p => (decide (minc < p) && hash_cond upd minc bits d p)
                || decide (p = maxc))
              (minc + 1) (d.length - minc)
            = firstMatch
              (fun p => hash_cond upd minc bits d p)
              (minc + 1) (d.length - minc) := by
          refine firstMatch_congr _ _ _ _ ?_
          intro p h1 h2
          rw [decide_eq_true (show minc < p by omega), Bool.true_and,
              decide_eq_false (show ¬ p = maxc by omega), Bool.or_false]
        rw [hcongr]
        cases bd
        · obtain ⟨hfm, hcpf⟩ := sf2 rfl
          simp only [Bool.false_or]
          rw [if_neg (by simp only [decide_eq_true_eq, ge_iff_le]; omega)]
          show (none : Option Nat) = firstMatch
              (fun p => hash_cond upd minc bits d p) (minc + 1) (d.length - minc)
          rw [hfm]
        · have hfm := sf1 rfl
          simp only [Bool.true_or]
          show some cpf = firstMatch
              (fun p => hash_cond upd minc bits d p) (minc + 1) (d.length - minc)
          rw [hfm]

set_option maxRecDepth 10000 in
/-- C1 counterexample: with min_chunk = 1, max_chunk = 4, avg_chunk_bits = 0
(mask 0, so the hash condition always holds once a byte has been hashed), the
claimed rule declares a boundary at position 1 = min_chunk, while the code
declares it at position 2: the hash is first consulted only after the byte at
position min_chunk has been shifted in. -/
theorem c1_claimed_counterexample :
    ¬ (split_point rabin_update 1 4 0 [65, 65, 65]
        = c1_claimed_boundary rabin_update 1 4 0 [65, 65, 65]) := by
  decide

theorem c1_boundary_rule_witness :
    0 < 2 ∧ 2 ≤ 5 ∧
    split_point rabin_update 2 5 1 [65, 66, 67, 68, 69, 70]
      = c1_amended_boundary rabin_update 2 5 1 [65, 66, 67, 68, 69, 70] :=
  ⟨by decide, by decide,
   c1_boundary_rule rabin_update 2 5 1 [65, 66, 67, 68, 69, 70] (by decide) (by decide)⟩

end Noobaa
